import Mathlib

set_option maxRecDepth 40000

/-!
Verification of the Sudoku solving core (`src/sudoku.rs` of SudokuSAT).

The grid is a vector of rows of `i8` cells in the source; we embed it as a
`List (List Int)`.  Cell value `0` means empty, `1..=size` are digits.
Out-of-range reads return `0`, matching the fact that all reachable accesses
in the claims are in bounds on square grids.
-/

/-- A Sudoku grid: rows of cells, as in the Rust `Vec<Vec<i8>>`. -/
abbrev SMatrix := List (List Int)

/-- Read `matrix[r][c]` (0 when out of bounds). -/
def getCell (m : SMatrix) (r c : Nat) : Int :=
  (m.getD r []).getD c 0

/-- Write `matrix[r][c] = v` (no-op when out of bounds, which never happens
on the square grids the claims range over). -/
def setCell (m : SMatrix) (r c : Nat) (v : Int) : SMatrix :=
  m.set r ((m.getD r []).set c v)

/-- The grid is square: every row has length `m.length` (the spec's shape
invariant for grids). -/
def SquareGrid (m : SMatrix) : Prop :=
  ∀ row ∈ m, row.length = m.length

/-- Floor integer square root (`usize::isqrt` in the source), in an
executable form; `isqrt_eq` below shows it is `Nat.sqrt`. -/
def isqrt (n : Nat) : Nat :=
  ((List.range n).filter (fun k => (k + 1) * (k + 1) ≤ n)).length

/-- `is_value_valid` from the source: `value` is rejected when `0`, or when
another cell in the same row, column, or `sub_size × sub_size` block
currently holds `value` (the cell at `pos` itself is skipped). -/
def is_value_valid (matrix : SMatrix) (value : Int) (pos : Nat × Nat) : Bool :=
  if value == 0 then false
  else
    let size := matrix.length
    let sub_size := (isqrt size)
    if (List.range size).any (fun i =>
        (getCell matrix pos.1 i == value && i != pos.2) ||
        (getCell matrix i pos.2 == value && i != pos.1)) then
      false
    else
      let row_sub := pos.1 - pos.1 % sub_size
      let col_sub := pos.2 - pos.2 % sub_size
      if (List.range sub_size).any (fun row =>
          (List.range sub_size).any (fun col =>
            if row + row_sub == pos.1 && col + col_sub == pos.2 then false
            else getCell matrix (row + row_sub) (col + col_sub) == value)) then
        false
      else
        true

/-- `is_matrix_valid` from the source: the row-major list of positions whose
current value fails `is_value_valid`. -/
def is_matrix_valid (matrix : SMatrix) : List (Nat × Nat) :=
  (List.range matrix.length).flatMap (fun row =>
    ((List.range matrix.length).filter (fun col =>
      !(is_value_valid matrix (getCell matrix row col) (row, col)))).map
      (fun col => (row, col)))

-- Backtracking solver -------------------------------------------------------

/-- The row-major list of empty-cell positions collected up front by
`solve_backtracking`. -/
def blankPositions (m : SMatrix) : List (Nat × Nat) :=
  (List.range m.length).flatMap (fun row =>
    ((List.range m.length).filter (fun col => getCell m row col == 0)).map
      (fun col => (row, col)))

/-- The inclusive integer range `lo..=hi` of a Rust `for` loop. -/
def intRange (lo hi : Int) : List Int :=
  (List.range (hi + 1 - lo).toNat).map (fun (k : Nat) => lo + (k : Int))

/-- One iteration of the `while i < positions.len()` loop of
`solve_backtracking`: try candidates `matrix[pos]+1..=size` in ascending
order; on the first valid one write it and advance, otherwise reset the cell
to `0` and either fail (at `i == 0`) or backtrack. -/
def solveStep (positions : List (Nat × Nat)) (size : Nat) (m : SMatrix)
    (i : Nat) : (SMatrix × Nat) ⊕ (SMatrix × Bool) :=
  if h : i < positions.length then
    let pos := positions.get ⟨i, h⟩
    match (intRange (getCell m pos.1 pos.2 + 1) (size : Int)).find?
        (fun w => is_value_valid m w pos) with
    | some w => Sum.inl (setCell m pos.1 pos.2 w, i + 1)
    | none =>
      let m' := setCell m pos.1 pos.2 0
      if i = 0 then Sum.inr (m', false) else Sum.inl (m', i - 1)
  else Sum.inr (m, true)

/-- The solver loop, with explicit fuel (the Rust loop is unbounded; a
separate theorem shows `btFuel` steps always suffice on square grids). -/
def solveLoop (positions : List (Nat × Nat)) (size : Nat) :
    Nat → SMatrix → Nat → Option (SMatrix × Bool)
  | 0, _, _ => none
  | fuel + 1, m, i =>
    match solveStep positions size m i with
    | Sum.inr r => some r
    | Sum.inl (m', i') => solveLoop positions size fuel m' i'

/-- Fuel that provably suffices for the whole search. -/
def btFuel (m : SMatrix) : Nat :=
  (m.length + 1) * (m.length + 2) ^ (blankPositions m).length + 1

/-- `solve_backtracking` from the source: the final grid plus the returned
boolean.  (The `getD` default is never reached on square grids.) -/
def solve_backtracking (m : SMatrix) : SMatrix × Bool :=
  (solveLoop (blankPositions m) m.length (btFuel m) m 0).getD (m, false)

-- SAT encoder / decoder ------------------------------------------------------

/-- A literal: variable index plus polarity (`true` = positive), as in
varisat's `Lit::from_index(idx, positive)`. -/
abbrev SLit := Nat × Bool

/-- Literal negation (`!a` in the source). -/
def negLit (l : SLit) : SLit := (l.1, !l.2)

/-- `lit_from_indx` from the source: the dense cube addressing
`n + size * (col + size * row)`, positive polarity. -/
def lit_from_indx (row col n size : Nat) : SLit :=
  (n + size * (col + size * row), true)

/-- Section 1 of `sudoku_to_sat`: each cell has at least one number. -/
def aloClauses (size : Nat) : List (List SLit) :=
  (List.range size).flatMap (fun r =>
    (List.range size).map (fun c =>
      (List.range size).map (fun n => lit_from_indx r c n size)))

/-- Section 2: each number at most once per row. -/
def rowAmoClauses (size : Nat) : List (List SLit) :=
  (List.range size).flatMap (fun r =>
    (List.range size).flatMap (fun n =>
      (List.range size).flatMap (fun c1 =>
        ((List.range size).filter (fun c2 => c1 < c2)).map (fun c2 =>
          [negLit (lit_from_indx r c1 n size),
           negLit (lit_from_indx r c2 n size)]))))

/-- Section 3: each number at most once per column. -/
def colAmoClauses (size : Nat) : List (List SLit) :=
  (List.range size).flatMap (fun c =>
    (List.range size).flatMap (fun n =>
      (List.range size).flatMap (fun r1 =>
        ((List.range size).filter (fun r2 => r1 < r2)).map (fun r2 =>
          [negLit (lit_from_indx r1 c n size),
           negLit (lit_from_indx r2 c n size)]))))

/-- Section 4: each number at most once per `sub_size × sub_size` block,
with the source's flattening of block-cell indices. -/
def blockAmoClauses (size : Nat) : List (List SLit) :=
  let sub_size := (isqrt size)
  (List.range sub_size).flatMap (fun br =>
    (List.range sub_size).flatMap (fun bc =>
      (List.range size).flatMap (fun n =>
        (List.range size).flatMap (fun i =>
          ((List.range size).filter (fun j => i < j)).map (fun j =>
            [negLit (lit_from_indx (br * sub_size + i / sub_size)
                (bc * sub_size + i % sub_size) n size),
             negLit (lit_from_indx (br * sub_size + j / sub_size)
                (bc * sub_size + j % sub_size) n size)])))))

/-- Section 5: a unit clause for every pre-filled cell. -/
def unitClauses (matrix : SMatrix) : List (List SLit) :=
  (List.range matrix.length).flatMap (fun r =>
    ((List.range matrix.length).filter
        (fun c => getCell matrix r c != 0)).map (fun c =>
      [lit_from_indx r c (getCell matrix r c - 1).toNat matrix.length]))

/-- `sudoku_to_sat` from the source: the five clause families in order. -/
def sudoku_to_sat (matrix : SMatrix) : List (List SLit) :=
  aloClauses matrix.length ++ rowAmoClauses matrix.length ++
    colAmoClauses matrix.length ++ blockAmoClauses matrix.length ++
    unitClauses matrix

/-- A truth assignment returned by the SAT engine. -/
abbrev SAssign := Nat → Bool

/-- The assignment agrees with the literal's polarity. -/
def litSat (f : SAssign) (l : SLit) : Bool := f l.1 == l.2

/-- The assignment satisfies some literal of the clause. -/
def clauseSat (f : SAssign) (cl : List SLit) : Bool := cl.any (litSat f)

/-- The assignment satisfies every clause. -/
def formulaSat (f : SAssign) (F : List (List SLit)) : Bool :=
  F.all (clauseSat f)

/-- The formula has a satisfying assignment. -/
def Satisfiable (F : List (List SLit)) : Prop := ∃ f, formulaSat f F = true

/-- The decoder's per-cell scan of `solve_sat`: the first digit whose
(positive) literal the model contains, else `0`. -/
def decodePick (f : SAssign) (size r c : Nat) : Int :=
  match (List.range size).find?
      (fun n => litSat f (lit_from_indx r c n size)) with
  | some n => (n : Int) + 1
  | none => 0

/-- The decoding loop of `solve_sat`: write the picked digit into every cell. -/
def decodeInto (f : SAssign) (size : Nat) (m : SMatrix) : SMatrix :=
  (List.range size).foldl (fun acc r =>
    (List.range size).foldl (fun acc2 c =>
      setCell acc2 r c (decodePick f size r c)) acc) m

/-- `solve_sat` from the source, with the external varisat engine modelled
by its answer: `none` for unsatisfiable, `some model` for a satisfying
assignment (the `EngineOk` contract below).  On `none` it returns `false`
without touching the grid; on `some` it decodes the model into the grid. -/
def solve_sat (engine : Option SAssign) (matrix : SMatrix) : SMatrix × Bool :=
  match engine with
  | none => (matrix, false)
  | some f => (decodeInto f matrix.length matrix, true)

/-- The SAT-engine contract of the spec: it answers `none` only on
unsatisfiable formulas and `some f` only for genuine models `f`. -/
def EngineOk (F : List (List SLit)) : Option SAssign → Prop
  | none => ¬ Satisfiable F
  | some f => formulaSat f F = true

-- Puzzle generator -----------------------------------------------------------

/-- The per-cell retry loop of `generate_random_matrix`
(`while matrix[row][col] == 0 { sample; write if valid }`), with the RNG
modelled by a stream of arbitrary naturals mapped onto `1..=size` (exactly
the range `random_range(1..=size)` draws from), and explicit fuel: `none`
means the loop is still running after `fuel` samples. -/
def cellRetry (size : Nat) (stream : Nat → Nat) :
    Nat → SMatrix → Nat × Nat → Option SMatrix
  | 0, _, _ => none
  | fuel + 1, m, pos =>
    if getCell m pos.1 pos.2 == 0 then
      let new_value : Int := ((stream fuel % size) + 1 : Nat)
      if is_value_valid m new_value pos then
        cellRetry size stream fuel (setCell m pos.1 pos.2 new_value) pos
      else
        cellRetry size stream fuel m pos
    else some m

-- Solved-grid predicate ------------------------------------------------------

/-- The digits `1..=n`. -/
def digitList (n : Nat) : List Int :=
  (List.range n).map (fun (k : Nat) => (k : Int) + 1)

/-- How many cells of row `r` hold digit `d`. -/
def rowCount (m : SMatrix) (r : Nat) (d : Int) : Nat :=
  ((List.range m.length).filter (fun c => getCell m r c == d)).length

/-- How many cells of column `c` hold digit `d`. -/
def colCount (m : SMatrix) (c : Nat) (d : Int) : Nat :=
  ((List.range m.length).filter (fun r => getCell m r c == d)).length

/-- How many cells of block `(br, bc)` hold digit `d`. -/
def blockCount (m : SMatrix) (br bc : Nat) (d : Int) : Nat :=
  ((List.range (isqrt m.length)).flatMap (fun i =>
    (List.range (isqrt m.length)).filter (fun j =>
      getCell m (br * (isqrt m.length) + i) (bc * (isqrt m.length) + j) == d))).length

/-- The grid is fully filled with digits `1..=size` and every row, column
and block holds each digit exactly once. -/
def isSolvedGrid (m : SMatrix) : Bool :=
  ((List.range m.length).all fun r => (List.range m.length).all fun c =>
    decide (1 ≤ getCell m r c) && decide (getCell m r c ≤ (m.length : Int))) &&
  ((List.range m.length).all fun r => (digitList m.length).all fun d =>
    rowCount m r d == 1) &&
  ((List.range m.length).all fun c => (digitList m.length).all fun d =>
    colCount m c d == 1) &&
  ((List.range (isqrt m.length)).all fun br =>
    (List.range (isqrt m.length)).all fun bc =>
      (digitList m.length).all fun d => blockCount m br bc d == 1)

/-- Positions in the same row, same column, or same `s × s` block. -/
def sameUnit (s : Nat) (p q : Nat × Nat) : Prop :=
  p.1 = q.1 ∨ p.2 = q.2 ∨ (p.1 / s = q.1 / s ∧ p.2 / s = q.2 / s)


-- Further definitions used by the claim theorems ----------------------------

/-- The row-major list of all in-bounds positions of the grid. -/
def allPositions (m : SMatrix) : List (Nat × Nat) :=
  (List.range m.length).flatMap (fun r =>
    (List.range m.length).map (fun c => (r, c)))

/-- The all-zero 9×9 grid. -/
def zero9 : SMatrix := List.replicate 9 (List.replicate 9 (0 : Int))

/-- A valid, fully-filled 9×9 Sudoku solution. -/
def sol9 : SMatrix :=
  (List.range 9).map (fun r =>
    (List.range 9).map (fun c => ((3 * (r % 3) + r / 3 + c) % 9 + 1 : Int)))

/-- `sol9` with cell `(0,0)` overwritten by its row neighbour's digit. -/
def bad9 : SMatrix := setCell sol9 0 0 (getCell sol9 0 1)

/-- A 4×4 grid on which no digit is valid at the empty cell `(0,0)`:
its row holds `1,2,3` and its column holds `4`. -/
def genStuck4 : SMatrix := [[0,1,2,3],[4,0,0,0],[0,0,0,0],[0,0,0,0]]

/-- A 4×4 fully-filled grid, every cell `1` (a pre-existing contradiction
with no blanks). -/
def ones4 : SMatrix := List.replicate 4 (List.replicate 4 (1 : Int))

/-- A 2×2 grid with a duplicated `1` in row 0, whose SAT encoding is
unsatisfiable. -/
def dup2 : SMatrix := [[1,1],[0,0]]


/-- The cell value at a listed position, clamped to `Nat` (all reachable
values are `0..=size`). -/
def cellValNat (m : SMatrix) (p : Nat × Nat) : Nat := (getCell m p.1 p.2).toNat

/-- One summand of the termination measure of the solver loop. -/
def phiTerm (positions : List (Nat × Nat)) (size : Nat) (m : SMatrix)
    (j : Nat) : Nat :=
  (size + 1 - cellValNat m (positions.getD j (0, 0))) *
    (size + 2) ^ (positions.length - j)

/-- Termination measure of the solver loop at cursor `i`: a base-`size+2`
weighting of the values at positions `0..=i` (positions beyond the cursor
are always `0`). -/
def phiBT (positions : List (Nat × Nat)) (size : Nat) (m : SMatrix)
    (i : Nat) : Nat :=
  ((List.range (i + 1)).map (phiTerm positions size m)).sum

/-- All listed positions hold values in `0..=size`. -/
def PosVals (positions : List (Nat × Nat)) (size : Nat) (m : SMatrix) : Prop :=
  ∀ j, j < positions.length →
    0 ≤ getCell m (positions.getD j (0, 0)).1 (positions.getD j (0, 0)).2 ∧
    getCell m (positions.getD j (0, 0)).1 (positions.getD j (0, 0)).2 ≤ (size : Int)

/-- Positions strictly beyond the cursor hold `0`. -/
def TailZero (positions : List (Nat × Nat)) (m : SMatrix) (i : Nat) : Prop :=
  ∀ j, i < j → j < positions.length →
    getCell m (positions.getD j (0, 0)).1 (positions.getD j (0, 0)).2 = 0


/-- Bool form of the shape invariant (for concrete witnesses). -/
def squareGridB (m : SMatrix) : Bool :=
  m.all (fun row => row.length == m.length)

/-- Every nonzero cell passes the constraint checker on the input grid
(consistency of the pre-filled cells), in decidable form. -/
def consistentFilled (m : SMatrix) : Bool :=
  (List.range m.length).all fun r => (List.range m.length).all fun c =>
    (getCell m r c == 0) || is_value_valid m (getCell m r c) (r, c)

/-- Every entry lies in `0..=size`, in decidable form. -/
def entriesInRange (m : SMatrix) : Bool :=
  (List.range m.length).all fun r => (List.range m.length).all fun c =>
    decide (0 ≤ getCell m r c) && decide (getCell m r c ≤ (m.length : Int))

/-- Soundness invariant of the solver loop at cursor `i`: every already
filled search cell holds a digit `1..=size` that differs from every earlier
search cell and every pre-filled cell sharing its row, column or block. -/
def SInv (m0 : SMatrix) (positions : List (Nat × Nat)) (m : SMatrix)
    (i : Nat) : Prop :=
  ∀ j, j < i → j < positions.length →
    (1 ≤ getCell m (positions.getD j (0, 0)).1 (positions.getD j (0, 0)).2 ∧
     getCell m (positions.getD j (0, 0)).1 (positions.getD j (0, 0)).2 ≤
       (m0.length : Int)) ∧
    (∀ k, k < j →
      sameUnit (isqrt m0.length) (positions.getD j (0, 0))
        (positions.getD k (0, 0)) →
      getCell m (positions.getD j (0, 0)).1 (positions.getD j (0, 0)).2 ≠
        getCell m (positions.getD k (0, 0)).1 (positions.getD k (0, 0)).2) ∧
    (∀ q : Nat × Nat, q.1 < m0.length → q.2 < m0.length → q ∉ positions →
      sameUnit (isqrt m0.length) (positions.getD j (0, 0)) q →
      getCell m (positions.getD j (0, 0)).1 (positions.getD j (0, 0)).2 ≠
        getCell m0 q.1 q.2)

/-- The full loop invariant of `solve_backtracking`. -/
def BTInv (m0 : SMatrix) (positions : List (Nat × Nat)) (m : SMatrix)
    (i : Nat) : Prop :=
  SquareGrid m ∧ m.length = m0.length ∧
  PosVals positions m0.length m ∧
  TailZero positions m i ∧
  (∀ r c, r < m0.length → c < m0.length → (r, c) ∉ positions →
    getCell m r c = getCell m0 r c) ∧
  SInv m0 positions m i


/-- Any two distinct in-bounds cells sharing a row, column or block hold
different values. -/
def PairwiseOK (m : SMatrix) : Prop :=
  ∀ p q : Nat × Nat, p.1 < m.length → p.2 < m.length → q.1 < m.length →
    q.2 < m.length → p ≠ q → sameUnit (isqrt m.length) p q →
    getCell m p.1 p.2 ≠ getCell m q.1 q.2

/-- Every in-bounds cell holds a digit `1..=size`. -/
def AllFilled (m : SMatrix) : Prop :=
  ∀ r c, r < m.length → c < m.length →
    1 ≤ getCell m r c ∧ getCell m r c ≤ (m.length : Int)


/-- The 4×4 puzzle with the single clue `grid[0][0] = 1`. -/
def seed4 : SMatrix := [[1,0,0,0],[0,0,0,0],[0,0,0,0],[0,0,0,0]]

/-- The solution `solve_backtracking` finds for `seed4`. -/
def seed4sol : SMatrix := [[1,2,3,4],[3,4,1,2],[2,1,4,3],[4,3,2,1]]


/-- `mc` completes `m0`: same side length, agreeing on every pre-filled cell. -/
def CompletionOf (m0 mc : SMatrix) : Prop :=
  mc.length = m0.length ∧
  ∀ r c, r < m0.length → c < m0.length → getCell m0 r c ≠ 0 →
    getCell mc r c = getCell m0 r c

/-- The assignment that makes exactly the grid's own digit literals true:
variable `v` decodes to cell `(v / size², v / size % size)` and digit
`v % size`. -/
def modelOfGrid (mc : SMatrix) : SAssign := fun v =>
  getCell mc (v / (mc.length * mc.length)) (v / mc.length % mc.length) ==
    ((v % mc.length : Nat) : Int) + 1

/-- Completeness invariant of the backtracking loop: the solved completion
`mc` has not yet been passed by the depth-first search.  Either some index
`j` below the cursor agrees with `mc` on every earlier search cell while its
own digit is still strictly below `mc`'s digit there, or the whole prefix
below the cursor agrees with `mc` and the cursor cell itself is still
strictly below `mc`'s digit. -/
def Frontier (positions : List (Nat × Nat)) (mc m : SMatrix) (i : Nat) :
    Prop :=
  (∃ j, j < i ∧ j < positions.length ∧
    (∀ k, k < j →
      getCell m (positions.getD k (0, 0)).1 (positions.getD k (0, 0)).2 =
        getCell mc (positions.getD k (0, 0)).1 (positions.getD k (0, 0)).2) ∧
    getCell m (positions.getD j (0, 0)).1 (positions.getD j (0, 0)).2 <
      getCell mc (positions.getD j (0, 0)).1 (positions.getD j (0, 0)).2) ∨
  ((∀ k, k < i → k < positions.length →
      getCell m (positions.getD k (0, 0)).1 (positions.getD k (0, 0)).2 =
        getCell mc (positions.getD k (0, 0)).1 (positions.getD k (0, 0)).2) ∧
   (i < positions.length →
      getCell m (positions.getD i (0, 0)).1 (positions.getD i (0, 0)).2 <
        getCell mc (positions.getD i (0, 0)).1 (positions.getD i (0, 0)).2))

/-- Decidable form of `CompletionOf` (for concrete witnesses). -/
def completionB (m0 mc : SMatrix) : Bool :=
  (mc.length == m0.length) &&
  (List.range m0.length).all fun r => (List.range m0.length).all fun c =>
    (getCell m0 r c == 0) || (getCell mc r c == getCell m0 r c)

-- ===== THEOREMS =====

theorem filter_range_of_lt (p : Nat → Bool) (n s : Nat) (hs : s ≤ n)
    (hp : ∀ k, p k = decide (k < s)) :
    (List.range n).filter p = List.range s := by
  induction n with
  | zero =>
    have : s = 0 := by omega
    subst this
    rfl
  | succ n ih =>
    rw [List.range_succ, List.filter_append]
    by_cases hsn : s ≤ n
    · rw [ih hsn]
      have : p n = false := by rw [hp]; simp; omega
      simp [this]
    · have hseq : s = n + 1 := by omega
      subst hseq
      have hall : (List.range n).filter p = List.range n := by
        rw [List.filter_eq_self]
        intro a ha
        rw [hp]
        simp only [List.mem_range] at ha
        simp
        omega
      have hpn : p n = true := by rw [hp]; simp
      rw [hall]
      simp [hpn, List.range_succ]

theorem isqrt_eq (n : Nat) : isqrt n = Nat.sqrt n := by
  unfold isqrt
  rw [filter_range_of_lt _ n (Nat.sqrt n) (Nat.sqrt_le_self n)
    (fun k => by
      rcases Nat.lt_or_ge k (Nat.sqrt n) with h | h
      · have : (k + 1) * (k + 1) ≤ n := Nat.le_sqrt.mp (by omega)
        simp [this, h]
      · have : ¬ (k + 1) * (k + 1) ≤ n := fun hc => by
          have := Nat.le_sqrt.mpr hc
          omega
        simp [this]
        omega),
    List.length_range]

-- Basic lemmas about cell access ------------------------------------------

theorem length_setCell (m : SMatrix) (r c : Nat) (v : Int) :
    (setCell m r c v).length = m.length := by
  simp [setCell]

theorem getD_setCell_row (m : SMatrix) (r c : Nat) (v : Int) (r' : Nat) :
    ((setCell m r c v).getD r' []) =
      if r = r' ∧ r < m.length then (m.getD r []).set c v else m.getD r' [] := by
  unfold setCell
  simp only [List.getD_eq_getElem?_getD, List.getElem?_set]
  by_cases hr : r = r'
  · subst hr
    by_cases hlt : r < m.length
    · simp [hlt]
    · simp [hlt, List.getElem?_eq_none (by omega : m.length ≤ r)]
  · simp [hr]

theorem getCell_setCell (m : SMatrix) (r c : Nat) (v : Int) (r' c' : Nat) :
    getCell (setCell m r c v) r' c' =
      if r = r' ∧ c = c' ∧ r < m.length ∧ c < (m.getD r []).length then v
      else getCell m r' c' := by
  unfold getCell
  rw [getD_setCell_row]
  by_cases h1 : r = r' ∧ r < m.length
  · obtain ⟨h1a, h1b⟩ := h1
    subst h1a
    rw [if_pos ⟨rfl, h1b⟩]
    by_cases h2 : c = c'
    · subst h2
      by_cases h3 : c < (m.getD r []).length
      · rw [if_pos ⟨rfl, rfl, h1b, h3⟩]
        simp [List.getD_eq_getElem?_getD, List.getElem?_set_self (by simpa using h3)]
      · rw [if_neg (by tauto)]
        simp only [List.getD_eq_getElem?_getD] at h3 ⊢
        rw [List.getElem?_eq_none (by simpa using Nat.le_of_not_lt h3),
            List.getElem?_eq_none (Nat.le_of_not_lt h3)]
    · rw [if_neg (by tauto)]
      simp [List.getD_eq_getElem?_getD, List.getElem?_set_ne (fun h => h2 h)]
  · rw [if_neg h1, if_neg (by tauto)]

theorem getCell_setCell_same (m : SMatrix) (r c : Nat) (v : Int)
    (hr : r < m.length) (hc : c < (m.getD r []).length) :
    getCell (setCell m r c v) r c = v := by
  rw [getCell_setCell, if_pos ⟨rfl, rfl, hr, hc⟩]

theorem getCell_setCell_ne (m : SMatrix) (r c : Nat) (v : Int) (r' c' : Nat)
    (h : (r', c') ≠ (r, c)) :
    getCell (setCell m r c v) r' c' = getCell m r' c' := by
  rw [getCell_setCell, if_neg]
  intro ⟨ha, hb, _⟩
  exact h (by rw [ha, hb])

theorem getD_eq_getElem_of_lt (m : SMatrix) (r : Nat) (hr : r < m.length) :
    m.getD r [] = m[r] := by
  simp [List.getD_eq_getElem?_getD, List.getElem?_eq_getElem hr]

theorem squareGrid_setCell (m : SMatrix) (r c : Nat) (v : Int)
    (h : SquareGrid m) : SquareGrid (setCell m r c v) := by
  intro row hrow
  rw [length_setCell]
  by_cases hr : r < m.length
  · unfold setCell at hrow
    rcases List.mem_or_eq_of_mem_set hrow with h1 | h2
    · exact h row h1
    · subst h2
      rw [List.length_set, getD_eq_getElem_of_lt m r hr]
      exact h _ (List.getElem_mem hr)
  · unfold setCell at hrow
    rw [List.set_eq_of_length_le (by omega)] at hrow
    exact h row hrow

theorem rowlen_of_square (m : SMatrix) (h : SquareGrid m) (r : Nat)
    (hr : r < m.length) : (m.getD r []).length = m.length := by
  rw [getD_eq_getElem_of_lt m r hr]
  exact h _ (List.getElem_mem hr)

-- intRange lemmas ------------------------------------------------------------

theorem intRange_empty (lo hi : Int) (h : hi < lo) : intRange lo hi = [] := by
  unfold intRange
  have h0 : (hi + 1 - lo).toNat = 0 := by omega
  rw [h0]
  rfl

theorem intRange_cons (lo hi : Int) (h : lo ≤ hi) :
    intRange lo hi = lo :: intRange (lo + 1) hi := by
  unfold intRange
  have h1 : (hi + 1 - lo).toNat = (hi + 1 - (lo + 1)).toNat + 1 := by omega
  rw [h1, List.range_succ_eq_map, List.map_cons, List.map_map]
  congr 1
  · simp
  · apply List.map_congr_left
    intro k _
    simp only [Function.comp_apply]
    push_cast
    omega

theorem mem_intRange (lo hi x : Int) :
    x ∈ intRange lo hi ↔ lo ≤ x ∧ x ≤ hi := by
  unfold intRange
  simp only [List.mem_map, List.mem_range]
  constructor
  · rintro ⟨k, hk, rfl⟩
    omega
  · rintro ⟨h1, h2⟩
    exact ⟨(x - lo).toNat, by omega, by omega⟩

theorem find?_intRange_none (lo hi : Int) (p : Int → Bool)
    (h : (intRange lo hi).find? p = none) :
    ∀ x, lo ≤ x → x ≤ hi → p x = false := by
  intro x h1 h2
  simpa using List.find?_eq_none.mp h x ((mem_intRange lo hi x).mpr ⟨h1, h2⟩)

theorem find?_intRange_minimal (hi : Int) (p : Int → Bool) :
    ∀ (k : Nat) (lo x : Int), (hi + 1 - lo).toNat = k →
      (intRange lo hi).find? p = some x →
      ∀ y, lo ≤ y → y < x → p y = false := by
  intro k
  induction k with
  | zero =>
    intro lo x hk hfind y hy1 hy2
    rw [intRange_empty lo hi (by omega)] at hfind
    simp at hfind
  | succ k ih =>
    intro lo x hk hfind y hy1 hy2
    have hle : lo ≤ hi := by omega
    rw [intRange_cons lo hi hle] at hfind
    by_cases hplo : p lo = true
    · rw [List.find?_cons_of_pos _ hplo] at hfind
      have hx : lo = x := by injection hfind
      omega
    · rw [List.find?_cons_of_neg _ hplo] at hfind
      by_cases hylo : y = lo
      · subst hylo
        simpa using hplo
      · exact ih (lo + 1) x (by omega) hfind y (by omega) hy2

theorem find?_intRange_some (lo hi : Int) (p : Int → Bool) (x : Int)
    (h : (intRange lo hi).find? p = some x) :
    lo ≤ x ∧ x ≤ hi ∧ p x = true ∧ ∀ y, lo ≤ y → y < x → p y = false := by
  have hx : x ∈ intRange lo hi := List.mem_of_find?_eq_some h
  have hpx : p x = true := List.find?_some h
  have hmem := (mem_intRange lo hi x).mp hx
  exact ⟨hmem.1, hmem.2, hpx,
    find?_intRange_minimal hi p (hi + 1 - lo).toNat lo x rfl h⟩

-- blankPositions lemmas ------------------------------------------------------

theorem mem_blankPositions (m : SMatrix) (p : Nat × Nat) :
    p ∈ blankPositions m ↔
      p.1 < m.length ∧ p.2 < m.length ∧ getCell m p.1 p.2 = 0 := by
  unfold blankPositions
  simp only [List.mem_flatMap, List.mem_map, List.mem_filter, List.mem_range]
  constructor
  · rintro ⟨r, hr, c, ⟨hc, hz⟩, rfl⟩
    exact ⟨hr, hc, by simpa using hz⟩
  · rintro ⟨h1, h2, h3⟩
    exact ⟨p.1, h1, p.2, ⟨h2, by simpa using h3⟩, (by simp : (p.1, p.2) = p)⟩

theorem blankPositions_nodup (m : SMatrix) : (blankPositions m).Nodup := by
  unfold blankPositions
  rw [List.nodup_flatMap]
  constructor
  · intro r _
    exact ((List.nodup_range _).filter _).map
      (fun a b hab => by injection hab)
  · apply List.Pairwise.imp ?_ (List.pairwise_lt_range _)
    intro a b hab
    intro x hxa hxb
    simp only [Function.onFun, List.mem_map, List.mem_filter] at hxa hxb
    obtain ⟨c1, _, rfl⟩ := hxa
    obtain ⟨c2, _, h2⟩ := hxb
    have h3 : b = a ∧ c2 = c1 := by simpa using h2
    omega


theorem sameUnit_symm (s : Nat) (p q : Nat × Nat) (h : sameUnit s p q) :
    sameUnit s q p := by
  unfold sameUnit at h ⊢
  tauto

theorem any_range_iff (n : Nat) (f : Nat → Bool) :
    ((List.range n).any f) = true ↔ ∃ i, i < n ∧ f i = true := by
  simp [List.any_eq_true]

/-- `is_value_valid` accepts `v` at `pos` exactly when `v` is nonzero and no
other in-bounds cell of the same row, column, or block holds `v`.  (Stated on
grids whose side is a perfect square, with `pos` in bounds.) -/
theorem is_value_valid_iff (m : SMatrix) (v : Int) (pos : Nat × Nat)
    (hs : (isqrt m.length) * (isqrt m.length) = m.length)
    (h1 : pos.1 < m.length) (h2 : pos.2 < m.length) :
    is_value_valid m v pos = true ↔
      v ≠ 0 ∧ ∀ q : Nat × Nat, q.1 < m.length → q.2 < m.length → q ≠ pos →
        sameUnit (isqrt m.length) pos q → getCell m q.1 q.2 ≠ v := by
  have hs0 : 0 < (isqrt m.length) := by
    rcases Nat.eq_zero_or_pos (isqrt m.length) with h | h
    · rw [h] at hs; omega
    · exact h
  have hdiv1 : pos.1 / (isqrt m.length) < (isqrt m.length) :=
    (Nat.div_lt_iff_lt_mul hs0).mpr (by omega)
  have hdiv2 : pos.2 / (isqrt m.length) < (isqrt m.length) :=
    (Nat.div_lt_iff_lt_mul hs0).mpr (by omega)
  have hsub1 : pos.1 - pos.1 % (isqrt m.length) =
      (isqrt m.length) * (pos.1 / (isqrt m.length)) := by
    have := Nat.mod_add_div pos.1 (isqrt m.length)
    omega
  have hsub2 : pos.2 - pos.2 % (isqrt m.length) =
      (isqrt m.length) * (pos.2 / (isqrt m.length)) := by
    have := Nat.mod_add_div pos.2 (isqrt m.length)
    omega
  by_cases hv : v = 0
  · subst hv
    constructor
    · intro hval
      exfalso
      unfold is_value_valid at hval
      simp at hval
    · rintro ⟨hne, -⟩
      exact absurd rfl hne
  unfold is_value_valid
  rw [if_neg (by simpa using hv)]
  simp only []
  constructor
  · intro hval
    by_cases hA : ((List.range m.length).any fun i =>
        getCell m pos.1 i == v && i != pos.2 ||
        getCell m i pos.2 == v && i != pos.1) = true
    · rw [if_pos hA] at hval
      cases hval
    rw [if_neg hA] at hval
    by_cases hB : ((List.range (isqrt m.length)).any fun row =>
        (List.range (isqrt m.length)).any fun col =>
          if (row + (pos.1 - pos.1 % (isqrt m.length)) == pos.1 &&
              col + (pos.2 - pos.2 % (isqrt m.length)) == pos.2) = true then false
          else getCell m (row + (pos.1 - pos.1 % (isqrt m.length)))
              (col + (pos.2 - pos.2 % (isqrt m.length))) == v) = true
    · rw [if_pos hB] at hval
      cases hval
    refine ⟨hv, ?_⟩
    intro q hq1 hq2 hqne hsame heq
    rcases hsame with hrow | hcol | ⟨hbr, hbc⟩
    · apply hA
      rw [any_range_iff]
      refine ⟨q.2, hq2, ?_⟩
      have hne2 : q.2 ≠ pos.2 := fun hc => hqne (Prod.ext_iff.mpr ⟨hrow.symm, hc⟩)
      rw [hrow, heq]
      simp [hne2]
    · apply hA
      rw [any_range_iff]
      refine ⟨q.1, hq1, ?_⟩
      have hne1 : q.1 ≠ pos.1 := fun hc => hqne (Prod.ext_iff.mpr ⟨hc, hcol.symm⟩)
      rw [hcol, heq]
      simp [hne1]
    · apply hB
      rw [any_range_iff]
      refine ⟨q.1 % (isqrt m.length), Nat.mod_lt _ hs0, ?_⟩
      rw [any_range_iff]
      refine ⟨q.2 % (isqrt m.length), Nat.mod_lt _ hs0, ?_⟩
      have hc1 : q.1 % (isqrt m.length) + (pos.1 - pos.1 % (isqrt m.length)) = q.1 := by
        rw [hsub1, hbr]
        exact Nat.mod_add_div q.1 (isqrt m.length)
      have hc2 : q.2 % (isqrt m.length) + (pos.2 - pos.2 % (isqrt m.length)) = q.2 := by
        rw [hsub2, hbc]
        exact Nat.mod_add_div q.2 (isqrt m.length)
      rw [hc1, hc2]
      have hqne' : ¬ (q.1 = pos.1 ∧ q.2 = pos.2) := by
        intro hc
        exact hqne (Prod.ext_iff.mpr hc)
      rw [if_neg (by simpa [Bool.and_eq_true] using hqne')]
      simp [heq]
  · rintro ⟨-, hno⟩
    have hAfalse : ¬ ((List.range m.length).any fun i =>
        getCell m pos.1 i == v && i != pos.2 ||
        getCell m i pos.2 == v && i != pos.1) = true := by
      rw [any_range_iff]
      rintro ⟨i, hi, helem⟩
      simp only [Bool.or_eq_true, Bool.and_eq_true, beq_iff_eq, bne_iff_ne,
        ne_eq] at helem
      rcases helem with ⟨hcell, hne⟩ | ⟨hcell, hne⟩
      · exact hno (pos.1, i) h1 hi
          (fun hc => hne (congrArg Prod.snd hc)) (Or.inl rfl) hcell
      · exact hno (i, pos.2) hi h2
          (fun hc => hne (congrArg Prod.fst hc)) (Or.inr (Or.inl rfl)) hcell
    have hBfalse : ¬ ((List.range (isqrt m.length)).any fun row =>
        (List.range (isqrt m.length)).any fun col =>
          if (row + (pos.1 - pos.1 % (isqrt m.length)) == pos.1 &&
              col + (pos.2 - pos.2 % (isqrt m.length)) == pos.2) = true then false
          else getCell m (row + (pos.1 - pos.1 % (isqrt m.length)))
              (col + (pos.2 - pos.2 % (isqrt m.length))) == v) = true := by
      rw [any_range_iff]
      rintro ⟨row, hrowlt, hinner⟩
      rw [any_range_iff] at hinner
      obtain ⟨col, hcollt, helem⟩ := hinner
      by_cases hg : (row + (pos.1 - pos.1 % (isqrt m.length)) == pos.1 &&
          col + (pos.2 - pos.2 % (isqrt m.length)) == pos.2) = true
      · rw [if_pos hg] at helem
        cases helem
      rw [if_neg hg] at helem
      rw [beq_iff_eq] at helem
      have hb1 : (isqrt m.length) * (pos.1 / (isqrt m.length) + 1) ≤ m.length := by
        calc (isqrt m.length) * (pos.1 / (isqrt m.length) + 1)
            ≤ (isqrt m.length) * (isqrt m.length) := Nat.mul_le_mul_left _ hdiv1
          _ = m.length := hs
      have hb2 : (isqrt m.length) * (pos.2 / (isqrt m.length) + 1) ≤ m.length := by
        calc (isqrt m.length) * (pos.2 / (isqrt m.length) + 1)
            ≤ (isqrt m.length) * (isqrt m.length) := Nat.mul_le_mul_left _ hdiv2
          _ = m.length := hs
      rw [Nat.mul_succ] at hb1 hb2
      have hq1 : row + (pos.1 - pos.1 % (isqrt m.length)) < m.length := by omega
      have hq2 : col + (pos.2 - pos.2 % (isqrt m.length)) < m.length := by omega
      have hd1 : (row + (pos.1 - pos.1 % (isqrt m.length))) / (isqrt m.length) =
          pos.1 / (isqrt m.length) := by
        rw [hsub1, Nat.mul_comm, Nat.add_mul_div_right _ _ hs0,
          Nat.div_eq_of_lt hrowlt, Nat.zero_add]
      have hd2 : (col + (pos.2 - pos.2 % (isqrt m.length))) / (isqrt m.length) =
          pos.2 / (isqrt m.length) := by
        rw [hsub2, Nat.mul_comm, Nat.add_mul_div_right _ _ hs0,
          Nat.div_eq_of_lt hcollt, Nat.zero_add]
      have hgne : (row + (pos.1 - pos.1 % (isqrt m.length)),
          col + (pos.2 - pos.2 % (isqrt m.length))) ≠ pos := by
        intro hc
        apply hg
        rw [Prod.ext_iff] at hc
        simp only [Bool.and_eq_true, beq_iff_eq]
        exact ⟨hc.1, hc.2⟩
      exact hno _ hq1 hq2 hgne (Or.inr (Or.inr ⟨hd1.symm, hd2.symm⟩)) helem
    rw [if_neg hAfalse, if_neg hBfalse]

-- Claim C9: the literal index bijection --------------------------------------

/-- C9: `lit_from_indx` computes `row*size² + col*size + digit` and is a
bijection between the cube `[0,size)³` and the index range `[0, size³)`:
it is injective on the cube and every index below `size³` is hit. -/
theorem claim_C9_lit_bijection (size : Nat) :
    (∀ row col n, row < size → col < size → n < size →
      (lit_from_indx row col n size).1 = row * size * size + col * size + n) ∧
    (∀ r1 c1 n1 r2 c2 n2, r1 < size → c1 < size → n1 < size →
      r2 < size → c2 < size → n2 < size →
      lit_from_indx r1 c1 n1 size = lit_from_indx r2 c2 n2 size →
      r1 = r2 ∧ c1 = c2 ∧ n1 = n2) ∧
    (∀ idx, idx < size * size * size → ∃ row col n, row < size ∧ col < size ∧
      n < size ∧ (lit_from_indx row col n size).1 = idx) := by
  refine ⟨?_, ?_, ?_⟩
  · intro row col n _ _ _
    unfold lit_from_indx
    ring
  · intro r1 c1 n1 r2 c2 n2 hr1 hc1 hn1 hr2 hc2 hn2 heq
    unfold lit_from_indx at heq
    have hs0 : 0 < size := by omega
    have h : n1 + size * (c1 + size * r1) = n2 + size * (c2 + size * r2) := by
      have := congrArg Prod.fst heq
      simpa using this
    have hn : n1 = n2 := by
      have h1 := congrArg (· % size) h
      simpa [Nat.add_mul_mod_self_left, Nat.mod_eq_of_lt hn1,
        Nat.mod_eq_of_lt hn2] using h1
    subst hn
    have h2 : size * (c1 + size * r1) = size * (c2 + size * r2) := by omega
    have h3 : c1 + size * r1 = c2 + size * r2 :=
      Nat.eq_of_mul_eq_mul_left hs0 h2
    have hc : c1 = c2 := by
      have h4 := congrArg (· % size) h3
      simpa [Nat.add_mul_mod_self_left, Nat.mod_eq_of_lt hc1,
        Nat.mod_eq_of_lt hc2] using h4
    subst hc
    have h5 : size * r1 = size * r2 := by omega
    exact ⟨Nat.eq_of_mul_eq_mul_left hs0 h5, rfl, rfl⟩
  · intro idx hidx
    have hs0 : 0 < size := by
      rcases Nat.eq_zero_or_pos size with h | h
      · subst h; simp at hidx
      · exact h
    refine ⟨idx / size / size, idx / size % size, idx % size,
      ?_, Nat.mod_lt _ hs0, Nat.mod_lt _ hs0, ?_⟩
    · rw [Nat.div_div_eq_div_mul]
      exact (Nat.div_lt_iff_lt_mul (Nat.mul_pos hs0 hs0)).mpr
        (by rw [← Nat.mul_assoc]; exact hidx)
    · unfold lit_from_indx
      have e2 := Nat.div_add_mod idx size
      have e3 := Nat.div_add_mod (idx / size) size
      calc idx % size + size * (idx / size % size + size * (idx / size / size))
          = idx % size + size * (size * (idx / size / size) + idx / size % size) := by
            ring
        _ = idx % size + size * (idx / size) := by rw [e3]
        _ = idx := by rw [Nat.add_comm]; exact e2

/-- C9 witness: the bijection instantiated on the 4×4 cube. -/
theorem claim_C9_witness :
    (lit_from_indx 1 2 3 4).1 = 1 * 4 * 4 + 2 * 4 + 3 :=
  (claim_C9_lit_bijection 4).1 1 2 3 (by decide) (by decide) (by decide)

-- Claim C3: clause counts on the empty 9×9 grid ------------------------------

/-- C3 counterexample: on the all-zero 9×9 grid the three at-most-one clause
families together hold `8748` clauses, not the `9*9*C(9,2) = 2916` the claim
asserts (that is the size of each single family). -/
theorem claim_C3_counterexample :
    sudoku_to_sat zero9 = aloClauses 9 ++ rowAmoClauses 9 ++ colAmoClauses 9 ++
      blockAmoClauses 9 ++ unitClauses zero9 ∧
    (rowAmoClauses 9).length + (colAmoClauses 9).length +
      (blockAmoClauses 9).length = 8748 ∧
    ¬ ((rowAmoClauses 9).length + (colAmoClauses 9).length +
      (blockAmoClauses 9).length = 9 * 9 * Nat.choose 9 2) := by
  have hrow : (rowAmoClauses 9).length = 2916 := by
    simp only [rowAmoClauses, List.length_flatMap, List.map_map]
    decide
  have hcol : (colAmoClauses 9).length = 2916 := by
    simp only [colAmoClauses, List.length_flatMap, List.map_map]
    decide
  have hblock : (blockAmoClauses 9).length = 2916 := by
    simp only [blockAmoClauses, List.length_flatMap, List.map_map]
    decide
  refine ⟨?_, by rw [hrow, hcol, hblock], by rw [hrow, hcol, hblock]; decide⟩
  have h9 : zero9.length = 9 := rfl
  unfold sudoku_to_sat
  rw [h9]

/-- C3 amended: the empty 9×9 encoding has exactly `9*9` at-least-one
clauses, `9*9*C(9,2) = 2916` at-most-one clauses in each of the row, column
and block families (`3 * 2916 = 8748` combined), and zero unit clauses. -/
theorem claim_C3_amended :
    (aloClauses 9).length = 9 * 9 ∧
    (rowAmoClauses 9).length = 9 * 9 * Nat.choose 9 2 ∧
    (colAmoClauses 9).length = 9 * 9 * Nat.choose 9 2 ∧
    (blockAmoClauses 9).length = 9 * 9 * Nat.choose 9 2 ∧
    (rowAmoClauses 9).length + (colAmoClauses 9).length +
      (blockAmoClauses 9).length = 3 * (9 * 9 * Nat.choose 9 2) ∧
    (unitClauses zero9).length = 0 := by
  have halo : (aloClauses 9).length = 81 := by
    simp only [aloClauses, List.length_flatMap, List.map_map]
    decide
  have hrow : (rowAmoClauses 9).length = 2916 := by
    simp only [rowAmoClauses, List.length_flatMap, List.map_map]
    decide
  have hcol : (colAmoClauses 9).length = 2916 := by
    simp only [colAmoClauses, List.length_flatMap, List.map_map]
    decide
  have hblock : (blockAmoClauses 9).length = 2916 := by
    simp only [blockAmoClauses, List.length_flatMap, List.map_map]
    decide
  exact ⟨by rw [halo], by rw [hrow]; decide, by rw [hcol]; decide,
    by rw [hblock]; decide, by rw [hrow, hcol, hblock]; decide, by decide⟩

-- Claim C8: is_matrix_valid ---------------------------------------------------

/-- C8 counterexample: `sol9` is a valid full 9×9 solution and `bad9` copies
the row neighbour `(0,1)` into `(0,0)`; `is_matrix_valid` then reports three
positions — the two row duplicates and `(3,0)`, the column-0 cell holding the
duplicated digit `2` — so it does not return exactly two positions. -/
theorem claim_C8_counterexample :
    isSolvedGrid sol9 = true ∧
    bad9 = setCell sol9 0 0 (getCell sol9 0 1) ∧
    getCell sol9 0 0 ≠ getCell sol9 0 1 ∧
    is_matrix_valid bad9 = [(0, 0), (0, 1), (3, 0)] ∧
    getCell bad9 3 0 = getCell bad9 0 0 ∧
    ¬ (is_matrix_valid bad9).length = 2 := by
  refine ⟨by decide, rfl, by decide, by decide, by decide, by decide⟩

/-- C8 amended: `is_matrix_valid` returns exactly the row-major positions
whose current value (including `0`) fails `is_value_valid`; in the concrete
duplicated-neighbour scenario it returns the two row positions of the
duplicate together with the column cell that also holds the duplicated
digit — three positions, not two. -/
theorem claim_C8_amended :
    (∀ m : SMatrix, is_matrix_valid m = (allPositions m).filter
      (fun p => !(is_value_valid m (getCell m p.1 p.2) p))) ∧
    is_matrix_valid bad9 = [(0, 0), (0, 1), (3, 0)] := by
  constructor
  · intro m
    unfold is_matrix_valid allPositions
    rw [List.filter_flatMap]
    apply List.flatMap_congr ?_
    intro r _
    rw [List.filter_map]
    rfl
  · decide

-- Claim C10: the generator's retry loop can run forever -----------------------

/-- C10: there is a grid state and an empty cell at which every digit
`1..=size` fails `is_value_valid`, and there the retry loop of
`generate_random_matrix` never terminates, whatever the random samples. -/
theorem claim_C10_generator_stuck :
    ∃ (g : SMatrix) (pos : Nat × Nat),
      getCell g pos.1 pos.2 = 0 ∧
      ((intRange 1 (g.length : Int)).all
        (fun d => !(is_value_valid g d pos))) = true ∧
      ∀ (fuel : Nat) (stream : Nat → Nat),
        cellRetry g.length stream fuel g pos = none := by
  refine ⟨genStuck4, (0, 0), by decide, by decide, ?_⟩
  have hinv : ∀ k : Nat,
      is_value_valid genStuck4 ((k % 4 + 1 : Nat) : Int) (0, 0) = false := by
    intro k
    have h4 : k % 4 = 0 ∨ k % 4 = 1 ∨ k % 4 = 2 ∨ k % 4 = 3 := by omega
    rcases h4 with h | h | h | h <;> rw [h] <;> decide
  intro fuel
  induction fuel with
  | zero => intro stream; rfl
  | succ fuel ih =>
    intro stream
    show cellRetry 4 stream (fuel + 1) genStuck4 (0, 0) = none
    simp only [cellRetry]
    rw [if_pos (by decide), if_neg (by rw [hinv (stream fuel)]; simp)]
    exact ih stream

-- Claim C6: unsatisfiable formula leaves the grid untouched -------------------

theorem dup2_unsat : ¬ Satisfiable (sudoku_to_sat dup2) := by
  rintro ⟨f, hf⟩
  have hall := List.all_eq_true.mp hf
  have h1 : clauseSat f [((0 : Nat), true)] = true := hall _ (by decide)
  have h2 : clauseSat f [((2 : Nat), true)] = true := hall _ (by decide)
  have h3 : clauseSat f [((0 : Nat), false), ((2 : Nat), false)] = true :=
    hall _ (by decide)
  simp only [clauseSat, litSat, List.any_cons, List.any_nil,
    Bool.or_false, Bool.or_eq_true, beq_iff_eq] at h1 h2 h3
  rcases h3 with h3 | h3 <;> simp_all

/-- C6: whenever the encoded formula of a grid is unsatisfiable, `solve_sat`
(run with any engine satisfying the engine contract) returns `false` and
leaves every cell of the grid unchanged. -/
theorem claim_C6_unsat_no_mutation (matrix : SMatrix) (engine : Option SAssign)
    (hok : EngineOk (sudoku_to_sat matrix) engine)
    (hunsat : ¬ Satisfiable (sudoku_to_sat matrix)) :
    solve_sat engine matrix = (matrix, false) := by
  cases engine with
  | none => rfl
  | some f => exact absurd ⟨f, hok⟩ hunsat

/-- C6 witness: the duplicated-row 2×2 grid, whose formula is unsatisfiable. -/
theorem claim_C6_witness : solve_sat none dup2 = (dup2, false) :=
  claim_C6_unsat_no_mutation dup2 none dup2_unsat dup2_unsat

-- Counterexamples to C1 and C2 on a blank-free contradictory grid -------------

/-- C1 counterexample: `ones4` (all cells `1`) has no blanks, so
`solve_backtracking` succeeds immediately, yet the resulting grid is not a
solution — digit `1` appears four times in row 0. -/
theorem claim_C1_counterexample :
    solve_backtracking ones4 = (ones4, true) ∧
    isSolvedGrid ones4 = false ∧ rowCount ones4 0 1 = 4 := by
  exact ⟨by decide, by decide, by decide⟩

/-- C2 counterexample: `ones4` holds the same nonzero value twice in row 0,
yet `solve_backtracking` returns `true`, not `false` (there are no blank
cells, so the loop body never runs). -/
theorem claim_C2_counterexample :
    getCell ones4 0 0 = getCell ones4 0 1 ∧ getCell ones4 0 0 ≠ 0 ∧
    (solve_backtracking ones4).2 = true := by
  exact ⟨by decide, by decide, by decide⟩

-- Termination of the backtracking loop --------------------------------------

theorem getD_list_eq (l : List (Nat × Nat)) (j : Nat) (hj : j < l.length) :
    l.getD j (0, 0) = l[j] := by
  rw [List.getD_eq_getElem?_getD, List.getElem?_eq_getElem hj]
  rfl

theorem solveStep_done (positions : List (Nat × Nat)) (size : Nat)
    (m : SMatrix) (i : Nat) (hi : ¬ i < positions.length) :
    solveStep positions size m i = Sum.inr (m, true) := by
  unfold solveStep
  rw [dif_neg hi]

theorem solveStep_advance (positions : List (Nat × Nat)) (size : Nat)
    (m : SMatrix) (i : Nat) (hi : i < positions.length) (w : Int)
    (hfind : (intRange (getCell m (positions.get ⟨i, hi⟩).1
        (positions.get ⟨i, hi⟩).2 + 1) (size : Int)).find?
        (fun w => is_value_valid m w (positions.get ⟨i, hi⟩)) = some w) :
    solveStep positions size m i =
      Sum.inl (setCell m (positions.get ⟨i, hi⟩).1
        (positions.get ⟨i, hi⟩).2 w, i + 1) := by
  unfold solveStep
  rw [dif_pos hi]
  simp only []
  rw [hfind]

theorem solveStep_fail (positions : List (Nat × Nat)) (size : Nat)
    (m : SMatrix) (hi : 0 < positions.length)
    (hfind : (intRange (getCell m (positions.get ⟨0, hi⟩).1
        (positions.get ⟨0, hi⟩).2 + 1) (size : Int)).find?
        (fun w => is_value_valid m w (positions.get ⟨0, hi⟩)) = none) :
    solveStep positions size m 0 =
      Sum.inr (setCell m (positions.get ⟨0, hi⟩).1
        (positions.get ⟨0, hi⟩).2 0, false) := by
  unfold solveStep
  rw [dif_pos hi]
  simp only []
  rw [hfind]
  simp

theorem solveStep_back (positions : List (Nat × Nat)) (size : Nat)
    (m : SMatrix) (i : Nat) (hi : i < positions.length) (hi0 : i ≠ 0)
    (hfind : (intRange (getCell m (positions.get ⟨i, hi⟩).1
        (positions.get ⟨i, hi⟩).2 + 1) (size : Int)).find?
        (fun w => is_value_valid m w (positions.get ⟨i, hi⟩)) = none) :
    solveStep positions size m i =
      Sum.inl (setCell m (positions.get ⟨i, hi⟩).1
        (positions.get ⟨i, hi⟩).2 0, i - 1) := by
  unfold solveStep
  rw [dif_pos hi]
  simp only []
  rw [hfind]
  simp [hi0]

theorem phi_advance_arith (size R A v' w' z : Nat) (hR : R = size + 2)
    (hw1 : v' + 1 ≤ w') (hw2 : w' ≤ size) (hA : 1 ≤ A) :
    (size + 1 - w') * (R * A) + (size + 1 - z) * A <
      (size + 1 - v') * (R * A) := by
  have h3 : (size + 1 - w') * (R * A) ≤ (size - v') * (R * A) :=
    Nat.mul_le_mul_right _ (by omega)
  have h4 : (size + 1 - z) * A ≤ (size + 1) * A :=
    Nat.mul_le_mul_right _ (by omega)
  have h5 : (size - v') * (R * A) + (size + 1) * A <
      (size + 1 - v') * (R * A) := by
    have hv : size + 1 - v' = (size - v') + 1 := by omega
    have hexp : (size - v' + 1) * (R * A) = (size - v') * (R * A) + R * A := by
      ring
    rw [hv, hexp]
    have h6 : (size + 1) * A < R * A :=
      (Nat.mul_lt_mul_right (show 0 < A by omega)).mpr (by omega)
    exact Nat.add_lt_add_left h6 _
  exact lt_of_le_of_lt (Nat.add_le_add h3 h4) h5

theorem solveLoop_term (positions : List (Nat × Nat)) (size : Nat)
    (hnodup : positions.Nodup)
    (hmem : ∀ p ∈ positions, p.1 < size ∧ p.2 < size) :
    ∀ (fuel : Nat) (m : SMatrix) (i : Nat),
      SquareGrid m → m.length = size →
      PosVals positions size m →
      phiBT positions size m i < fuel →
      (solveLoop positions size fuel m i).isSome := by
  intro fuel
  induction fuel with
  | zero =>
    intro m i _ _ _ hphi
    exact absurd hphi (by omega)
  | succ fuel ih =>
    intro m i hsq hlen hvals hphi
    rw [solveLoop]
    by_cases hi : i < positions.length
    case neg =>
      rw [solveStep_done positions size m i hi]
      simp
    case pos =>
      have hposD : positions.getD i (0, 0) = positions.get ⟨i, hi⟩ := by
        rw [getD_list_eq positions i hi]
        rfl
      set pos := positions.get ⟨i, hi⟩ with hposdef
      have hposmem : pos ∈ positions := List.get_mem _ _ _
      obtain ⟨hp1, hp2⟩ := hmem pos hposmem
      have hrowlen : (m.getD pos.1 []).length = m.length :=
        rowlen_of_square m hsq pos.1 (by omega)
      have hvbound := hvals i hi
      rw [hposD] at hvbound
      have hother : ∀ j, j < positions.length → j ≠ i →
          positions.getD j (0, 0) ≠ pos := by
        intro j hj hji heqp
        rw [getD_list_eq positions j hj] at heqp
        have hgj : positions[j] = positions[i] := by
          rw [heqp]
          rfl
        exact hji ((List.Nodup.getElem_inj_iff hnodup).mp hgj)
      have hcell_other : ∀ (v : Int) (j), j < positions.length → j ≠ i →
          getCell (setCell m pos.1 pos.2 v) (positions.getD j (0, 0)).1
            (positions.getD j (0, 0)).2 =
          getCell m (positions.getD j (0, 0)).1 (positions.getD j (0, 0)).2 := by
        intro v j hj hji
        apply getCell_setCell_ne
        intro hc
        apply hother j hj hji
        exact Prod.ext_iff.mpr
          ⟨congrArg Prod.fst hc, congrArg Prod.snd hc⟩
      have hterm_other : ∀ (v : Int) (j), j < i →
          phiTerm positions size (setCell m pos.1 pos.2 v) j =
          phiTerm positions size m j := by
        intro v j hj
        unfold phiTerm cellValNat
        rw [hcell_other v j (by omega) (by omega)]
      have hpre : ∀ v : Int,
          ((List.range i).map
            (phiTerm positions size (setCell m pos.1 pos.2 v))).sum =
          ((List.range i).map (phiTerm positions size m)).sum := by
        intro v
        apply congrArg
        apply List.map_congr_left
        intro j hj
        exact hterm_other v j (List.mem_range.mp hj)
      have hphiM : phiBT positions size m i =
          ((List.range i).map (phiTerm positions size m)).sum +
            phiTerm positions size m i := by
        unfold phiBT
        rw [List.range_succ, List.map_append, List.sum_append]
        simp
      have htermi_lb : 1 ≤ phiTerm positions size m i := by
        unfold phiTerm cellValNat
        rw [hposD]
        have hf1 : 1 ≤ size + 1 - (getCell m pos.1 pos.2).toNat := by omega
        have hf2 : 1 ≤ (size + 2) ^ (positions.length - i) :=
          Nat.one_le_pow _ _ (by omega)
        exact Nat.mul_le_mul hf1 hf2
      cases hfind : (intRange (getCell m pos.1 pos.2 + 1) (size : Int)).find?
          (fun w => is_value_valid m w pos) with
      | some w =>
        rw [solveStep_advance positions size m i hi w hfind]
        simp only []
        obtain ⟨hw1, hw2, hwval, hwmin⟩ := find?_intRange_some _ _ _ _ hfind
        set m' := setCell m pos.1 pos.2 w with hm'
        have hgetw : getCell m' pos.1 pos.2 = w :=
          getCell_setCell_same m pos.1 pos.2 w (by omega) (by omega)
        apply ih m' (i + 1) (squareGrid_setCell m pos.1 pos.2 w hsq)
          (by rw [hm', length_setCell]; exact hlen)
        · intro j hj
          by_cases hji : j = i
          · subst hji
            rw [hposD, hgetw]
            constructor <;> omega
          · rw [hm', hcell_other w j hj hji]
            exact hvals j hj
        · have hdec : phiBT positions size m' (i + 1) <
              phiBT positions size m i := by
            have hsplit : phiBT positions size m' (i + 1) =
                ((List.range i).map (phiTerm positions size m')).sum +
                  (phiTerm positions size m' i +
                   phiTerm positions size m' (i + 1)) := by
              unfold phiBT
              rw [List.range_succ, List.map_append, List.sum_append,
                List.range_succ, List.map_append, List.sum_append]
              simp [Nat.add_assoc]
            rw [hsplit, hphiM, hm', hpre]
            apply Nat.add_lt_add_left
            unfold phiTerm cellValNat
            rw [hposD]
            rw [← hm', hgetw]
            have hLi : positions.length - i = (positions.length - (i + 1)) + 1 := by
              omega
            rw [hLi, pow_succ, Nat.mul_comm ((size + 2) ^ (positions.length - (i + 1))) (size + 2)]
            exact phi_advance_arith size (size + 2)
              ((size + 2) ^ (positions.length - (i + 1)))
              (getCell m pos.1 pos.2).toNat w.toNat
              (getCell m' (positions.getD (i + 1) (0, 0)).1
                (positions.getD (i + 1) (0, 0)).2).toNat
              rfl (by omega) (by omega) (Nat.one_le_pow _ _ (by omega))
          omega
      | none =>
        by_cases hi0 : i = 0
        · subst hi0
          rw [solveStep_fail positions size m hi hfind]
          simp
        · rw [solveStep_back positions size m i hi hi0 hfind]
          simp only []
          set m' := setCell m pos.1 pos.2 0 with hm'
          apply ih m' (i - 1) (squareGrid_setCell m pos.1 pos.2 0 hsq)
            (by rw [hm', length_setCell]; exact hlen)
          · intro j hj
            by_cases hji : j = i
            · subst hji
              rw [hposD]
              rw [hm', getCell_setCell_same m pos.1 pos.2 0 (by omega) (by omega)]
              constructor <;> omega
            · rw [hm', hcell_other 0 j hj hji]
              exact hvals j hj
          · have hdec : phiBT positions size m' (i - 1) <
                phiBT positions size m i := by
              have hsplit : phiBT positions size m' (i - 1) =
                  ((List.range i).map (phiTerm positions size m')).sum := by
                unfold phiBT
                rw [show i - 1 + 1 = i by omega]
              rw [hsplit, hphiM, hm', hpre]
              omega
            omega

theorem bt_terminates (m : SMatrix) (hsq : SquareGrid m) :
    (solveLoop (blankPositions m) m.length (btFuel m) m 0).isSome := by
  apply solveLoop_term (blankPositions m) m.length (blankPositions_nodup m)
    (fun p hp => by
      have h := (mem_blankPositions m p).mp hp
      exact ⟨h.1, h.2.1⟩)
    (btFuel m) m 0 hsq rfl
  · intro j hj
    have hmem := (mem_blankPositions m (blankPositions m |>.getD j (0, 0))).mp
      (by rw [getD_list_eq _ j hj]; exact List.getElem_mem hj)
    rw [hmem.2.2]
    exact ⟨le_refl 0, Int.natCast_nonneg _⟩
  · unfold phiBT btFuel
    have h1 : List.range (0 + 1) = [0] := rfl
    rw [h1]
    simp only [List.map_cons, List.map_nil, List.sum_cons, List.sum_nil,
      Nat.add_zero]
    unfold phiTerm cellValNat
    have h2 : m.length + 1 -
        (getCell m ((blankPositions m).getD 0 (0, 0)).1
          ((blankPositions m).getD 0 (0, 0)).2).toNat ≤ m.length + 1 := by
      omega
    have h3 := Nat.mul_le_mul_right
      ((m.length + 2) ^ ((blankPositions m).length - 0)) h2
    have h4 : (blankPositions m).length - 0 = (blankPositions m).length := rfl
    rw [h4] at h3 ⊢
    omega

/-- C2 amended: on any square grid holding the same nonzero value in two
cells of one row, `solve_backtracking` terminates — the loop reaches a
result within the provable fuel bound (it need not return `false`: with no
blank cells it returns `true` at once, as the counterexample shows). -/
theorem claim_C2_amended (m : SMatrix) (hsq : SquareGrid m)
    (r c1 c2 : Nat) (hcne : c1 ≠ c2)
    (hdup : getCell m r c1 = getCell m r c2)
    (hnz : getCell m r c1 ≠ 0) :
    ∃ res : SMatrix × Bool,
      solveLoop (blankPositions m) m.length (btFuel m) m 0 = some res ∧
      solve_backtracking m = res := by
  have h := bt_terminates m hsq
  cases hres : solveLoop (blankPositions m) m.length (btFuel m) m 0 with
  | none => rw [hres] at h; simp at h
  | some res =>
    refine ⟨res, rfl, ?_⟩
    unfold solve_backtracking
    rw [hres]
    rfl

/-- C2 witness: termination on the all-ones 4×4 grid with its row-0
duplicate. -/
theorem claim_C2_witness :
    ∃ res : SMatrix × Bool,
      solveLoop (blankPositions ones4) ones4.length (btFuel ones4)
        ones4 0 = some res ∧
      solve_backtracking ones4 = res :=
  claim_C2_amended ones4
    (by
      intro row hrow
      have hr : row = [(1 : Int), 1, 1, 1] := by simpa [ones4] using hrow
      rw [hr]
      rfl)
    0 0 1 (by decide) (by decide) (by decide)

-- Soundness of the backtracking loop ----------------------------------------

theorem positions_getD_ne (positions : List (Nat × Nat))
    (hnodup : positions.Nodup) (i j : Nat) (hi : i < positions.length)
    (hj : j < positions.length) (hij : j ≠ i) :
    positions.getD j (0, 0) ≠ positions.getD i (0, 0) := by
  rw [getD_list_eq positions i hi, getD_list_eq positions j hj]
  intro hc
  exact hij ((List.Nodup.getElem_inj_iff hnodup).mp hc)

theorem blank_getD_spec (m0 : SMatrix) (j : Nat)
    (hj : j < (blankPositions m0).length) :
    ((blankPositions m0).getD j (0, 0)).1 < m0.length ∧
    ((blankPositions m0).getD j (0, 0)).2 < m0.length ∧
    getCell m0 ((blankPositions m0).getD j (0, 0)).1
      ((blankPositions m0).getD j (0, 0)).2 = 0 := by
  apply (mem_blankPositions m0 _).mp
  rw [getD_list_eq _ j hj]
  exact List.getElem_mem hj

theorem solveLoop_sound (m0 : SMatrix)
    (hs : isqrt m0.length * isqrt m0.length = m0.length) :
    ∀ (fuel : Nat) (m : SMatrix) (i : Nat) (mf : SMatrix),
      BTInv m0 (blankPositions m0) m i →
      solveLoop (blankPositions m0) m0.length fuel m i = some (mf, true) →
      BTInv m0 (blankPositions m0) mf (blankPositions m0).length := by
  intro fuel
  induction fuel with
  | zero =>
    intro m i mf _ hloop
    cases hloop
  | succ fuel ih =>
    intro m i mf hinv hloop
    rw [solveLoop] at hloop
    by_cases hi : i < (blankPositions m0).length
    case neg =>
      rw [solveStep_done _ _ _ _ hi] at hloop
      have hpair : (m, true) = (mf, true) := by
        injection hloop
      have hmmf : m = mf := congrArg Prod.fst hpair
      subst hmmf
      obtain ⟨hsq, hlen, hvals, htail, hoff, hsinv⟩ := hinv
      refine ⟨hsq, hlen, hvals, ?_, hoff, ?_⟩
      · intro j hj1 hj2
        omega
      · intro j hj1 hj2
        exact hsinv j (by omega) hj2
    case pos =>
      obtain ⟨hsq, hlen, hvals, htail, hoff, hsinv⟩ := hinv
      have hposD : (blankPositions m0).getD i (0, 0) =
          (blankPositions m0).get ⟨i, hi⟩ := by
        rw [getD_list_eq _ i hi]
        rfl
      set positions := blankPositions m0 with hpositions
      set pos := positions.get ⟨i, hi⟩ with hposdef
      obtain ⟨hp1, hp2, hp0⟩ := blank_getD_spec m0 i hi
      rw [hposD] at hp1 hp2 hp0
      have hrowlen : (m.getD pos.1 []).length = m.length :=
        rowlen_of_square m hsq pos.1 (by omega)
      have hposmem : pos ∈ positions := List.get_mem _ _ _
      have hother : ∀ j, j < positions.length → j ≠ i →
          positions.getD j (0, 0) ≠ pos := by
        intro j hj hji heqp
        rw [getD_list_eq positions j hj] at heqp
        have hgj : positions[j] = positions[i] := by
          rw [heqp]
          rfl
        exact hji ((List.Nodup.getElem_inj_iff (blankPositions_nodup m0)).mp hgj)
      have hcell_other : ∀ (v : Int) (j), j < positions.length → j ≠ i →
          getCell (setCell m pos.1 pos.2 v) (positions.getD j (0, 0)).1
            (positions.getD j (0, 0)).2 =
          getCell m (positions.getD j (0, 0)).1 (positions.getD j (0, 0)).2 := by
        intro v j hj hji
        apply getCell_setCell_ne
        intro hc
        apply hother j hj hji
        exact Prod.ext_iff.mpr
          ⟨congrArg Prod.fst hc, congrArg Prod.snd hc⟩
      cases hfind : (intRange (getCell m pos.1 pos.2 + 1)
          (m0.length : Int)).find? (fun w => is_value_valid m w pos) with
      | some w =>
        rw [solveStep_advance positions m0.length m i hi w hfind] at hloop
        obtain ⟨hw1, hw2, hwval, hwmin⟩ := find?_intRange_some _ _ _ _ hfind
        have hvbound := hvals i hi
        rw [hposD] at hvbound
        have hval_spec := (is_value_valid_iff m w pos
          (by rw [hlen]; exact hs) (by omega) (by omega)).mp hwval
        set m' := setCell m pos.1 pos.2 w with hm'
        have hgetw : getCell m' pos.1 pos.2 = w :=
          getCell_setCell_same m pos.1 pos.2 w (by omega) (by omega)
        apply ih m' (i + 1) mf ?_ hloop
        refine ⟨squareGrid_setCell m pos.1 pos.2 w hsq,
          (by rw [hm', length_setCell]; exact hlen), ?_, ?_, ?_, ?_⟩
        · -- PosVals
          intro j hj
          by_cases hji : j = i
          · subst hji
            rw [hposD, hgetw]
            constructor <;> omega
          · rw [hm', hcell_other w j hj hji]
            exact hvals j hj
        · -- TailZero at i+1
          intro j hj1 hj2
          rw [hm', hcell_other w j hj2 (by omega)]
          exact htail j (by omega) hj2
        · -- off-positions cells unchanged
          intro r c hr hc hnotin
          rw [hm', getCell_setCell_ne m pos.1 pos.2 w r c
            (by
              intro hc2
              apply hnotin
              have : (r, c) = pos := by
                exact Prod.ext_iff.mpr
                  ⟨congrArg Prod.fst hc2, congrArg Prod.snd hc2⟩
              rw [this]
              exact hposmem)]
          exact hoff r c hr hc hnotin
        · -- SInv at i+1
          intro j hj1 hj2
          by_cases hji : j = i
          · subst hji
            rw [hposD, hgetw]
            refine ⟨⟨by omega, by omega⟩, ?_, ?_⟩
            · -- vs earlier search cells
              intro k hk hsame
              obtain ⟨hk1, hk2, _⟩ := blank_getD_spec m0 k (by omega)
              rw [hm', hcell_other w k (by omega) (by omega)]
              have := hval_spec.2 (positions.getD k (0, 0))
                (by rw [hlen]; exact hk1) (by rw [hlen]; exact hk2)
                (by
                  intro hc
                  exact hother k (by omega) (by omega) hc)
                (by
                  rw [show isqrt m.length = isqrt m0.length by rw [hlen]]
                  exact hsame)
              exact fun hc => this hc.symm
            · -- vs pre-filled cells
              intro q hq1 hq2 hqnotin hsame
              have hqoff : getCell m q.1 q.2 = getCell m0 q.1 q.2 :=
                hoff q.1 q.2 hq1 hq2 (by simpa using hqnotin)
              have := hval_spec.2 q (by omega) (by omega)
                (by
                  intro hc
                  rw [hc] at hqnotin
                  exact hqnotin hposmem)
                (by
                  rw [show isqrt m.length = isqrt m0.length by rw [hlen]]
                  exact hsame)
              rw [hqoff] at this
              exact fun hc => this hc.symm
          · -- earlier cells: everything unchanged
            have hjlt : j < i := by omega
            obtain ⟨hb, hconf1, hconf2⟩ := hsinv j hjlt hj2
            refine ⟨?_, ?_, ?_⟩
            · rw [hm', hcell_other w j hj2 hji]
              exact hb
            · intro k hk hsame
              rw [hm', hcell_other w j hj2 hji,
                hcell_other w k (by omega) (by omega)]
              exact hconf1 k hk hsame
            · intro q hq1 hq2 hqnotin hsame
              rw [hm', hcell_other w j hj2 hji]
              exact hconf2 q hq1 hq2 hqnotin hsame
      | none =>
        by_cases hi0 : i = 0
        · subst hi0
          rw [solveStep_fail positions m0.length m hi hfind] at hloop
          have hpair : (setCell m pos.1 pos.2 0, false) = (mf, true) := by
            injection hloop
          have : false = true := congrArg Prod.snd hpair
          cases this
        · rw [solveStep_back positions m0.length m i hi hi0 hfind] at hloop
          set m' := setCell m pos.1 pos.2 0 with hm'
          apply ih m' (i - 1) mf ?_ hloop
          refine ⟨squareGrid_setCell m pos.1 pos.2 0 hsq,
            (by rw [hm', length_setCell]; exact hlen), ?_, ?_, ?_, ?_⟩
          · intro j hj
            by_cases hji : j = i
            · subst hji
              rw [hposD, hm',
                getCell_setCell_same m pos.1 pos.2 0 (by omega) (by omega)]
              constructor <;> omega
            · rw [hm', hcell_other 0 j hj hji]
              exact hvals j hj
          · intro j hj1 hj2
            by_cases hji : j = i
            · subst hji
              rw [hposD, hm',
                getCell_setCell_same m pos.1 pos.2 0 (by omega) (by omega)]
            · rw [hm', hcell_other 0 j hj2 hji]
              exact htail j (by omega) hj2
          · intro r c hr hc hnotin
            rw [hm', getCell_setCell_ne m pos.1 pos.2 0 r c
              (by
                intro hc2
                apply hnotin
                have : (r, c) = pos := Prod.ext_iff.mpr
                  ⟨congrArg Prod.fst hc2, congrArg Prod.snd hc2⟩
                rw [this]
                exact hposmem)]
            exact hoff r c hr hc hnotin
          · intro j hj1 hj2
            have hjlt : j < i := by omega
            obtain ⟨hb, hconf1, hconf2⟩ := hsinv j hjlt hj2
            refine ⟨?_, ?_, ?_⟩
            · rw [hm', hcell_other 0 j hj2 (by omega)]
              exact hb
            · intro k hk hsame
              rw [hm', hcell_other 0 j hj2 (by omega),
                hcell_other 0 k (by omega) (by omega)]
              exact hconf1 k hk hsame
            · intro q hq1 hq2 hqnotin hsame
              rw [hm', hcell_other 0 j hj2 (by omega)]
              exact hconf2 q hq1 hq2 hqnotin hsame

-- Pigeonhole: pairwise-distinct digits appear exactly once --------------------

theorem count_one_of_cells (n : Nat) (m : SMatrix) (cells : List (Nat × Nat))
    (hlen : cells.length = n) (hnodup : cells.Nodup)
    (hb : ∀ p ∈ cells, 1 ≤ getCell m p.1 p.2 ∧ getCell m p.1 p.2 ≤ (n : Int))
    (hinj : ∀ p q, p ∈ cells → q ∈ cells → p ≠ q →
      getCell m p.1 p.2 ≠ getCell m q.1 q.2) :
    ∀ d : Int, 1 ≤ d → d ≤ (n : Int) →
      (cells.filter (fun p => getCell m p.1 p.2 == d)).length = 1 := by
  intro d hd1 hd2
  have hvnodup : (cells.map (fun p => getCell m p.1 p.2)).Nodup := by
    apply List.Nodup.map_on ?_ hnodup
    intro x hx y hy hxy
    by_contra hne
    exact hinj x y hx hy hne hxy
  have hvlen : (cells.map (fun p => getCell m p.1 p.2)).length = n := by
    rw [List.length_map, hlen]
  have hsub : (cells.map (fun p => getCell m p.1 p.2)).toFinset ⊆
      Finset.Icc (1 : Int) (n : Int) := by
    intro x hx
    rw [List.mem_toFinset] at hx
    obtain ⟨p, hp, rfl⟩ := List.mem_map.mp hx
    exact Finset.mem_Icc.mpr (hb p hp)
  have hcardIcc : (Finset.Icc (1 : Int) (n : Int)).card = n := by
    rw [Int.card_Icc]
    simp
  have hcardv : (cells.map (fun p => getCell m p.1 p.2)).toFinset.card = n := by
    rw [List.toFinset_card_of_nodup hvnodup, hvlen]
  have heq : (cells.map (fun p => getCell m p.1 p.2)).toFinset =
      Finset.Icc (1 : Int) (n : Int) :=
    Finset.eq_of_subset_of_card_le hsub (by rw [hcardv, hcardIcc])
  have hdmem : d ∈ cells.map (fun p => getCell m p.1 p.2) := by
    rw [← List.mem_toFinset, heq]
    exact Finset.mem_Icc.mpr ⟨hd1, hd2⟩
  have hcount : (cells.map (fun p => getCell m p.1 p.2)).count d = 1 :=
    List.count_eq_one_of_mem hvnodup hdmem
  calc (cells.filter (fun p => getCell m p.1 p.2 == d)).length
      = cells.countP (fun p => getCell m p.1 p.2 == d) :=
        (List.countP_eq_length_filter _ _).symm
    _ = (cells.map (fun p => getCell m p.1 p.2)).count d := by
        rw [List.count, List.countP_map]
        rfl
    _ = 1 := hcount

theorem rowCount_as_cells (m : SMatrix) (r : Nat) (d : Int) :
    rowCount m r d = (((List.range m.length).map (fun c => (r, c))).filter
      (fun p => getCell m p.1 p.2 == d)).length := by
  unfold rowCount
  rw [List.filter_map, List.length_map]
  rfl

theorem colCount_as_cells (m : SMatrix) (c : Nat) (d : Int) :
    colCount m c d = (((List.range m.length).map (fun r => (r, c))).filter
      (fun p => getCell m p.1 p.2 == d)).length := by
  unfold colCount
  rw [List.filter_map, List.length_map]
  rfl

theorem blockCount_as_cells (m : SMatrix) (br bc : Nat) (d : Int) :
    blockCount m br bc d = (((List.range (isqrt m.length)).flatMap (fun i =>
      (List.range (isqrt m.length)).map (fun j =>
        (br * isqrt m.length + i, bc * isqrt m.length + j)))).filter
      (fun p => getCell m p.1 p.2 == d)).length := by
  unfold blockCount
  rw [List.filter_flatMap, List.length_flatMap, List.length_flatMap]
  apply congrArg
  apply List.map_congr_left
  intro i _
  simp only [Function.comp]
  rw [List.filter_map, List.length_map]
  rfl

theorem mem_digitList (n : Nat) (d : Int) :
    d ∈ digitList n ↔ 1 ≤ d ∧ d ≤ (n : Int) := by
  unfold digitList
  simp only [List.mem_map, List.mem_range]
  constructor
  · rintro ⟨k, hk, rfl⟩
    constructor <;> omega
  · rintro ⟨h1, h2⟩
    exact ⟨(d - 1).toNat, by omega, by omega⟩

theorem solved_of_pairwise (m : SMatrix)
    (hs : isqrt m.length * isqrt m.length = m.length)
    (hf : AllFilled m) (hp : PairwiseOK m) : isSolvedGrid m = true := by
  have hcell_lt : ∀ a b, a < isqrt m.length → b < isqrt m.length →
      a * isqrt m.length + b < m.length := by
    intro a b ha hb
    calc a * isqrt m.length + b < a * isqrt m.length + isqrt m.length := by omega
      _ = (a + 1) * isqrt m.length := by ring
      _ ≤ isqrt m.length * isqrt m.length :=
        Nat.mul_le_mul_right _ (by omega)
      _ = m.length := hs
  have hdivcell : ∀ a b, a < isqrt m.length → b < isqrt m.length →
      (a * isqrt m.length + b) / isqrt m.length = a := by
    intro a b ha hb
    rw [Nat.mul_comm, Nat.mul_add_div (by omega)]
    simp [Nat.div_eq_of_lt hb]
  unfold isSolvedGrid
  simp only [Bool.and_eq_true, List.all_eq_true, List.mem_range]
  refine ⟨⟨⟨?_, ?_⟩, ?_⟩, ?_⟩
  · -- every cell holds a digit in range
    intro r hr
    intro c hc
    have := hf r c hr hc
    simp only [Bool.and_eq_true, decide_eq_true_eq]
    exact this
  · -- rows
    intro r hr d hd
    rw [beq_iff_eq, rowCount_as_cells]
    obtain ⟨hd1, hd2⟩ := (mem_digitList m.length d).mp hd
    apply count_one_of_cells m.length m _ (by rw [List.length_map, List.length_range])
      ?_ ?_ ?_ d hd1 hd2
    · exact (List.nodup_range _).map (fun a b h => by injection h)
    · intro p hpmem
      obtain ⟨c, hc, rfl⟩ := List.mem_map.mp hpmem
      exact hf r c hr (List.mem_range.mp hc)
    · intro p q hpmem hqmem hne
      obtain ⟨c1, hc1, rfl⟩ := List.mem_map.mp hpmem
      obtain ⟨c2, hc2, rfl⟩ := List.mem_map.mp hqmem
      exact hp (r, c1) (r, c2) hr (List.mem_range.mp hc1) hr
        (List.mem_range.mp hc2) hne (Or.inl rfl)
  · -- columns
    intro c hc d hd
    rw [beq_iff_eq, colCount_as_cells]
    obtain ⟨hd1, hd2⟩ := (mem_digitList m.length d).mp hd
    apply count_one_of_cells m.length m _ (by rw [List.length_map, List.length_range])
      ?_ ?_ ?_ d hd1 hd2
    · exact (List.nodup_range _).map (fun a b h => by injection h)
    · intro p hpmem
      obtain ⟨r, hr, rfl⟩ := List.mem_map.mp hpmem
      exact hf r c (List.mem_range.mp hr) hc
    · intro p q hpmem hqmem hne
      obtain ⟨r1, hr1, rfl⟩ := List.mem_map.mp hpmem
      obtain ⟨r2, hr2, rfl⟩ := List.mem_map.mp hqmem
      exact hp (r1, c) (r2, c) (List.mem_range.mp hr1) hc
        (List.mem_range.mp hr2) hc hne (Or.inr (Or.inl rfl))
  · -- blocks
    intro br hbr bc hbc d hd
    rw [beq_iff_eq, blockCount_as_cells]
    obtain ⟨hd1, hd2⟩ := (mem_digitList m.length d).mp hd
    have hmemcells : ∀ p : Nat × Nat,
        p ∈ (List.range (isqrt m.length)).flatMap (fun i =>
          (List.range (isqrt m.length)).map (fun j =>
            (br * isqrt m.length + i, bc * isqrt m.length + j))) →
        ∃ i j, i < isqrt m.length ∧ j < isqrt m.length ∧
          p = (br * isqrt m.length + i, bc * isqrt m.length + j) := by
      intro p hpmem
      rw [List.mem_flatMap] at hpmem
      obtain ⟨i, hi, hpm⟩ := hpmem
      obtain ⟨j, hj, rfl⟩ := List.mem_map.mp hpm
      exact ⟨i, j, List.mem_range.mp hi, List.mem_range.mp hj, rfl⟩
    apply count_one_of_cells m.length m _ ?_ ?_ ?_ ?_ d hd1 hd2
    · -- length s * s = n
      rw [List.length_flatMap]
      have hconst : List.map (List.length ∘ fun i =>
          (List.range (isqrt m.length)).map (fun j =>
            (br * isqrt m.length + i, bc * isqrt m.length + j)))
          (List.range (isqrt m.length)) =
          List.map (fun _ => isqrt m.length) (List.range (isqrt m.length)) := by
        apply List.map_congr_left
        intro i _
        simp only [Function.comp_apply, List.length_map, List.length_range]
      rw [hconst, List.map_const', List.sum_replicate, List.length_range,
        smul_eq_mul]
      exact hs
    · -- nodup
      rw [List.nodup_flatMap]
      constructor
      · intro i _
        exact (List.nodup_range _).map (fun a b h => by
          have := congrArg Prod.snd h
          simpa using this)
      · apply List.Pairwise.imp ?_ (List.pairwise_lt_range _)
        intro a b hab x hxa hxb
        obtain ⟨j1, hj1, rfl⟩ := List.mem_map.mp hxa
        obtain ⟨j2, hj2, hx2⟩ := List.mem_map.mp hxb
        have := congrArg Prod.fst hx2
        simp only at this
        omega
    · intro p hpmem
      obtain ⟨i, j, hi, hj, rfl⟩ := hmemcells p hpmem
      exact hf _ _ (hcell_lt br i hbr hi) (hcell_lt bc j hbc hj)
    · intro p q hpmem hqmem hne
      obtain ⟨i1, j1, hi1, hj1, rfl⟩ := hmemcells p hpmem
      obtain ⟨i2, j2, hi2, hj2, rfl⟩ := hmemcells q hqmem
      apply hp _ _ (hcell_lt br i1 hbr hi1) (hcell_lt bc j1 hbc hj1)
        (hcell_lt br i2 hbr hi2) (hcell_lt bc j2 hbc hj2) hne
      right; right
      constructor
      · rw [hdivcell br i1 hbr hi1, hdivcell br i2 hbr hi2]
      · rw [hdivcell bc j1 hbc hj1, hdivcell bc j2 hbc hj2]

-- Bridging the decidable preconditions ---------------------------------------

theorem squareGridB_spec (m : SMatrix) (h : squareGridB m = true) :
    SquareGrid m := by
  intro row hrow
  have := List.all_eq_true.mp h row hrow
  simpa using this

theorem entriesInRange_spec (m : SMatrix) (h : entriesInRange m = true) :
    ∀ r c, r < m.length → c < m.length →
      0 ≤ getCell m r c ∧ getCell m r c ≤ (m.length : Int) := by
  intro r c hr hc
  have h1 := List.all_eq_true.mp h r (List.mem_range.mpr hr)
  have h2 := List.all_eq_true.mp h1 c (List.mem_range.mpr hc)
  simpa using h2

theorem consistentFilled_spec (m : SMatrix) (h : consistentFilled m = true) :
    ∀ r c, r < m.length → c < m.length → getCell m r c ≠ 0 →
      is_value_valid m (getCell m r c) (r, c) = true := by
  intro r c hr hc hnz
  have h1 := List.all_eq_true.mp h r (List.mem_range.mpr hr)
  have h2 := List.all_eq_true.mp h1 c (List.mem_range.mpr hc)
  rcases (by simpa using h2 : getCell m r c = 0 ∨
      is_value_valid m (getCell m r c) (r, c) = true) with h3 | h3
  · exact absurd h3 hnz
  · exact h3

-- The backtracking half of C1 -------------------------------------------------

theorem bt_sound_final (m0 : SMatrix)
    (hsq : squareGridB m0 = true)
    (hs : isqrt m0.length * isqrt m0.length = m0.length)
    (hrange : entriesInRange m0 = true)
    (hcons : consistentFilled m0 = true)
    (mf : SMatrix) (hrun : solve_backtracking m0 = (mf, true)) :
    isSolvedGrid mf = true := by
  have hsq' := squareGridB_spec m0 hsq
  cases hres : solveLoop (blankPositions m0) m0.length (btFuel m0) m0 0 with
  | none =>
    unfold solve_backtracking at hrun
    rw [hres] at hrun
    have : (false : Bool) = true := congrArg Prod.snd hrun
    cases this
  | some res =>
    unfold solve_backtracking at hrun
    rw [hres] at hrun
    simp only [Option.getD_some] at hrun
    subst hrun
    have hinit : BTInv m0 (blankPositions m0) m0 0 := by
      refine ⟨hsq', rfl, ?_, ?_, fun r c _ _ _ => rfl, ?_⟩
      · intro j hj
        obtain ⟨h1, h2, h3⟩ := blank_getD_spec m0 j hj
        rw [h3]
        exact ⟨le_refl 0, Int.natCast_nonneg _⟩
      · intro j hj1 hj2
        exact (blank_getD_spec m0 j hj2).2.2
      · intro j hj1 hj2
        exact absurd hj1 (by omega)
    have hfin := solveLoop_sound m0 hs (btFuel m0) m0 0 mf hinit hres
    · obtain ⟨hsqf, hlenf, hvalsf, htailf, hofff, hsinvf⟩ := hfin
      have hall : AllFilled mf := by
        intro r c hr hc
        rw [hlenf] at hr hc ⊢
        by_cases hmem : (r, c) ∈ blankPositions m0
        · obtain ⟨j, hjlt, hjeq⟩ := List.mem_iff_getElem.mp hmem
          obtain ⟨⟨hb1, hb2⟩, -, -⟩ := hsinvf j hjlt hjlt
          rw [getD_list_eq _ j hjlt, hjeq] at hb1 hb2
          exact ⟨hb1, hb2⟩
        · have hv0 : getCell m0 r c ≠ 0 := by
            intro hc0
            exact hmem ((mem_blankPositions m0 (r, c)).mpr ⟨hr, hc, hc0⟩)
          have hrng := entriesInRange_spec m0 hrange r c hr hc
          rw [hofff r c hr hc hmem]
          exact ⟨by omega, hrng.2⟩
      have hpw : PairwiseOK mf := by
        intro p q hp1 hp2 hq1 hq2 hne hsame
        rw [hlenf] at hp1 hp2 hq1 hq2
        rw [show isqrt mf.length = isqrt m0.length by rw [hlenf]] at hsame
        by_cases hpm : p ∈ blankPositions m0 <;>
          by_cases hqm : q ∈ blankPositions m0
        · -- both search cells
          obtain ⟨j, hj, hjeq⟩ := List.mem_iff_getElem.mp hpm
          obtain ⟨k, hk, hkeq⟩ := List.mem_iff_getElem.mp hqm
          have hjk : j ≠ k := by
            intro hcjk
            subst hcjk
            rw [hjeq] at hkeq
            exact hne hkeq
          rcases Nat.lt_or_ge k j with hlt | hge
          · have hx := (hsinvf j hj hj).2.1 k hlt
              (by rw [getD_list_eq _ j hj, getD_list_eq _ k hk, hjeq, hkeq]
                  exact hsame)
            rw [getD_list_eq _ j hj, getD_list_eq _ k hk, hjeq, hkeq] at hx
            exact hx
          · have hkj : j < k := by omega
            have hx := (hsinvf k hk hk).2.1 j hkj
              (by rw [getD_list_eq _ j hj, getD_list_eq _ k hk, hjeq, hkeq]
                  exact sameUnit_symm _ _ _ hsame)
            rw [getD_list_eq _ j hj, getD_list_eq _ k hk, hjeq, hkeq] at hx
            exact hx.symm
        · -- p a search cell, q pre-filled
          obtain ⟨j, hj, hjeq⟩ := List.mem_iff_getElem.mp hpm
          have hx := (hsinvf j hj hj).2.2 q hq1 hq2 hqm
            (by rw [getD_list_eq _ j hj, hjeq]; exact hsame)
          rw [getD_list_eq _ j hj, hjeq] at hx
          rw [hofff q.1 q.2 hq1 hq2 hqm]
          exact hx
        · -- p pre-filled, q a search cell
          obtain ⟨j, hj, hjeq⟩ := List.mem_iff_getElem.mp hqm
          have hx := (hsinvf j hj hj).2.2 p hp1 hp2 hpm
            (by rw [getD_list_eq _ j hj, hjeq]
                exact sameUnit_symm _ _ _ hsame)
          rw [getD_list_eq _ j hj, hjeq] at hx
          rw [hofff p.1 p.2 hp1 hp2 hpm]
          exact hx.symm
        · -- both pre-filled
          have hnzp : getCell m0 p.1 p.2 ≠ 0 := by
            intro hc0
            exact hpm ((mem_blankPositions m0 p).mpr ⟨hp1, hp2, hc0⟩)
          have hvp := consistentFilled_spec m0 hcons p.1 p.2 hp1 hp2 hnzp
          have hspec := (is_value_valid_iff m0 (getCell m0 p.1 p.2) p
            hs hp1 hp2).mp hvp
          have hq := hspec.2 q hq1 hq2 (fun hc => hne hc.symm) hsame
          rw [hofff p.1 p.2 hp1 hp2 hpm, hofff q.1 q.2 hq1 hq2 hqm]
          exact fun hc => hq hc.symm
      exact solved_of_pairwise mf
        (by rw [hlenf]; exact hs) hall hpw

-- Clause membership in the encoding -------------------------------------------

theorem alo_clause_mem (size r c : Nat) (hr : r < size) (hc : c < size) :
    ((List.range size).map (fun n => lit_from_indx r c n size)) ∈
      aloClauses size := by
  unfold aloClauses
  rw [List.mem_flatMap]
  exact ⟨r, List.mem_range.mpr hr,
    List.mem_map.mpr ⟨c, List.mem_range.mpr hc, rfl⟩⟩

theorem rowAmo_clause_mem (size r n c1 c2 : Nat) (hr : r < size)
    (hn : n < size) (hc12 : c1 < c2) (hc2 : c2 < size) :
    [negLit (lit_from_indx r c1 n size), negLit (lit_from_indx r c2 n size)] ∈
      rowAmoClauses size := by
  unfold rowAmoClauses
  rw [List.mem_flatMap]
  refine ⟨r, List.mem_range.mpr hr, ?_⟩
  rw [List.mem_flatMap]
  refine ⟨n, List.mem_range.mpr hn, ?_⟩
  rw [List.mem_flatMap]
  refine ⟨c1, List.mem_range.mpr (by omega), ?_⟩
  exact List.mem_map.mpr ⟨c2, List.mem_filter.mpr
    ⟨List.mem_range.mpr hc2, by simpa using hc12⟩, rfl⟩

theorem colAmo_clause_mem (size c n r1 r2 : Nat) (hc : c < size)
    (hn : n < size) (hr12 : r1 < r2) (hr2 : r2 < size) :
    [negLit (lit_from_indx r1 c n size), negLit (lit_from_indx r2 c n size)] ∈
      colAmoClauses size := by
  unfold colAmoClauses
  rw [List.mem_flatMap]
  refine ⟨c, List.mem_range.mpr hc, ?_⟩
  rw [List.mem_flatMap]
  refine ⟨n, List.mem_range.mpr hn, ?_⟩
  rw [List.mem_flatMap]
  refine ⟨r1, List.mem_range.mpr (by omega), ?_⟩
  exact List.mem_map.mpr ⟨r2, List.mem_filter.mpr
    ⟨List.mem_range.mpr hr2, by simpa using hr12⟩, rfl⟩

theorem blockAmo_clause_mem (size br bc n i j : Nat)
    (hbr : br < isqrt size) (hbc : bc < isqrt size) (hn : n < size)
    (hij : i < j) (hj : j < size) :
    [negLit (lit_from_indx (br * isqrt size + i / isqrt size)
        (bc * isqrt size + i % isqrt size) n size),
     negLit (lit_from_indx (br * isqrt size + j / isqrt size)
        (bc * isqrt size + j % isqrt size) n size)] ∈
      blockAmoClauses size := by
  unfold blockAmoClauses
  simp only []
  rw [List.mem_flatMap]
  refine ⟨br, List.mem_range.mpr hbr, ?_⟩
  rw [List.mem_flatMap]
  refine ⟨bc, List.mem_range.mpr hbc, ?_⟩
  rw [List.mem_flatMap]
  refine ⟨n, List.mem_range.mpr hn, ?_⟩
  rw [List.mem_flatMap]
  refine ⟨i, List.mem_range.mpr (by omega), ?_⟩
  exact List.mem_map.mpr ⟨j, List.mem_filter.mpr
    ⟨List.mem_range.mpr hj, by simpa using hij⟩, rfl⟩

theorem sudoku_to_sat_mem (m : SMatrix) (cl : List SLit)
    (h : cl ∈ aloClauses m.length ∨ cl ∈ rowAmoClauses m.length ∨
      cl ∈ colAmoClauses m.length ∨ cl ∈ blockAmoClauses m.length ∨
      cl ∈ unitClauses m) :
    cl ∈ sudoku_to_sat m := by
  unfold sudoku_to_sat
  simp only [List.mem_append]
  tauto

-- Decoder properties under a satisfying model ---------------------------------

theorem decodePick_spec (f : SAssign) (size r c : Nat)
    (halo : clauseSat f ((List.range size).map
      (fun n => lit_from_indx r c n size)) = true) :
    ∃ n0, n0 < size ∧ decodePick f size r c = (n0 : Int) + 1 ∧
      litSat f (lit_from_indx r c n0 size) = true := by
  have hex : ∃ l ∈ (List.range size).map (fun n => lit_from_indx r c n size),
      litSat f l = true := List.any_eq_true.mp halo
  obtain ⟨l, hlm, hlsat⟩ := hex
  obtain ⟨n0, hn0, rfl⟩ := List.mem_map.mp hlm
  unfold decodePick
  cases hfind : (List.range size).find?
      (fun n => litSat f (lit_from_indx r c n size)) with
  | none =>
    rw [List.find?_eq_none] at hfind
    exact absurd hlsat (by simpa using hfind n0 hn0)
  | some n1 =>
    have hp := List.find?_some hfind
    exact ⟨n1, List.mem_range.mp (List.mem_of_find?_eq_some hfind), rfl,
      by simpa using hp⟩

theorem amo_contradiction (f : SAssign) (a b : SLit)
    (hclause : clauseSat f [negLit a, negLit b] = true)
    (ha : litSat f a = true) (hb : litSat f b = true) : False := by
  have ha' : f a.1 = a.2 := by simpa [litSat] using ha
  have hb' : f b.1 = b.2 := by simpa [litSat] using hb
  have hc : f a.1 = !a.2 ∨ f b.1 = !b.2 := by
    simpa [clauseSat, litSat, negLit] using hclause
  rcases hc with h | h
  · rw [ha'] at h
    cases hx : a.2 <;> rw [hx] at h <;> exact absurd h (by decide)
  · rw [hb'] at h
    cases hx : b.2 <;> rw [hx] at h <;> exact absurd h (by decide)

-- The decoding loop writes decodePick into every cell -------------------------

theorem getCell_setCell_sq (m : SMatrix) (hsq : SquareGrid m) (r c : Nat)
    (v : Int) (r' c' : Nat) :
    getCell (setCell m r c v) r' c' =
      if r = r' ∧ c = c' ∧ r < m.length ∧ c < m.length then v
      else getCell m r' c' := by
  rw [getCell_setCell]
  by_cases hr : r < m.length
  · rw [rowlen_of_square m hsq r hr]
  · rw [if_neg (by tauto), if_neg (by tauto)]

theorem foldl_setRow_length (g : Nat → Int) (r : Nat) :
    ∀ (cols : List Nat) (acc : SMatrix),
      (cols.foldl (fun a c => setCell a r c (g c)) acc).length = acc.length := by
  intro cols
  induction cols with
  | nil => intro acc; rfl
  | cons c rest ih =>
    intro acc
    rw [List.foldl_cons, ih, length_setCell]

theorem foldl_setRow_square (g : Nat → Int) (r : Nat) :
    ∀ (cols : List Nat) (acc : SMatrix), SquareGrid acc →
      SquareGrid (cols.foldl (fun a c => setCell a r c (g c)) acc) := by
  intro cols
  induction cols with
  | nil => intro acc h; exact h
  | cons c rest ih =>
    intro acc h
    rw [List.foldl_cons]
    exact ih _ (squareGrid_setCell acc r c (g c) h)

theorem getCell_foldl_setRow (g : Nat → Int) (r : Nat) (r' c' : Nat) :
    ∀ (cols : List Nat) (acc : SMatrix), SquareGrid acc →
      getCell (cols.foldl (fun a c => setCell a r c (g c)) acc) r' c' =
        if r = r' ∧ c' ∈ cols ∧ r < acc.length ∧ c' < acc.length then g c'
        else getCell acc r' c' := by
  intro cols
  induction cols with
  | nil =>
    intro acc _
    simp
  | cons c rest ih =>
    intro acc hsq
    rw [List.foldl_cons,
      ih (setCell acc r c (g c)) (squareGrid_setCell acc r c (g c) hsq),
      length_setCell, getCell_setCell_sq acc hsq r c (g c) r' c']
    by_cases h1 : r = r' ∧ c' ∈ rest ∧ r < acc.length ∧ c' < acc.length
    · rw [if_pos h1, if_pos ⟨h1.1, List.mem_cons_of_mem c h1.2.1, h1.2.2⟩]
    · rw [if_neg h1]
      by_cases h2 : r = r' ∧ c = c' ∧ r < acc.length ∧ c < acc.length
      · rw [if_pos h2, if_pos ⟨h2.1, by rw [← h2.2.1]; exact List.mem_cons_self c rest,
          h2.2.2.1, by rw [← h2.2.1]; exact h2.2.2.2⟩, h2.2.1]
      · rw [if_neg h2, if_neg ?_]
        intro ⟨ha, hb, hc2, hd⟩
        rcases List.mem_cons.mp hb with hcc | hcc
        · exact h2 ⟨ha, hcc.symm, hc2, by rw [← hcc]; exact hd⟩
        · exact h1 ⟨ha, hcc, hc2, hd⟩

theorem decodeInto_length (f : SAssign) (size : Nat) :
    ∀ (rows : List Nat) (acc : SMatrix),
      (rows.foldl (fun a r => (List.range size).foldl
        (fun a2 c => setCell a2 r c (decodePick f size r c)) a) acc).length =
      acc.length := by
  intro rows
  induction rows with
  | nil => intro acc; rfl
  | cons r rest ih =>
    intro acc
    rw [List.foldl_cons, ih, foldl_setRow_length]

theorem decodeInto_square (f : SAssign) (size : Nat) :
    ∀ (rows : List Nat) (acc : SMatrix), SquareGrid acc →
      SquareGrid (rows.foldl (fun a r => (List.range size).foldl
        (fun a2 c => setCell a2 r c (decodePick f size r c)) a) acc) := by
  intro rows
  induction rows with
  | nil => intro acc h; exact h
  | cons r rest ih =>
    intro acc h
    rw [List.foldl_cons]
    exact ih _ (foldl_setRow_square _ r (List.range size) acc h)

theorem getCell_foldl_rows (f : SAssign) (size : Nat) (r' c' : Nat) :
    ∀ (rows : List Nat) (acc : SMatrix), SquareGrid acc →
      getCell (rows.foldl (fun a r => (List.range size).foldl
        (fun a2 c => setCell a2 r c (decodePick f size r c)) a) acc) r' c' =
      if r' ∈ rows ∧ c' < size ∧ r' < acc.length ∧ c' < acc.length then
        decodePick f size r' c'
      else getCell acc r' c' := by
  intro rows
  induction rows with
  | nil =>
    intro acc _
    simp
  | cons r rest ih =>
    intro acc hsq
    rw [List.foldl_cons,
      ih _ (foldl_setRow_square _ r (List.range size) acc hsq),
      foldl_setRow_length,
      getCell_foldl_setRow (fun c => decodePick f size r c) r r' c'
        (List.range size) acc hsq]
    by_cases h1 : r' ∈ rest ∧ c' < size ∧ r' < acc.length ∧ c' < acc.length
    · rw [if_pos h1, if_pos ⟨List.mem_cons_of_mem r h1.1, h1.2⟩]
    · rw [if_neg h1]
      by_cases h2 : r = r' ∧ c' ∈ List.range size ∧ r < acc.length ∧
          c' < acc.length
      · rw [if_pos h2, if_pos ⟨by rw [← h2.1]; exact List.mem_cons_self r rest,
          List.mem_range.mp h2.2.1, by rw [← h2.1]; exact h2.2.2.1, h2.2.2.2⟩,
          h2.1]
      · rw [if_neg h2, if_neg ?_]
        intro ⟨ha, hb, hc2, hd⟩
        rcases List.mem_cons.mp ha with hrr | hrr
        · exact h2 ⟨hrr.symm, List.mem_range.mpr hb,
            by rw [hrr] at hc2; exact hc2, hd⟩
        · exact h1 ⟨hrr, hb, hc2, hd⟩

theorem decodeInto_spec (f : SAssign) (m : SMatrix) (hsq : SquareGrid m)
    (r c : Nat) (hr : r < m.length) (hc : c < m.length) :
    getCell (decodeInto f m.length m) r c = decodePick f m.length r c := by
  unfold decodeInto
  rw [getCell_foldl_rows f m.length r c (List.range m.length) m hsq,
    if_pos ⟨List.mem_range.mpr hr, hc, hr, hc⟩]

theorem decodeInto_len (f : SAssign) (m : SMatrix) :
    (decodeInto f m.length m).length = m.length := by
  unfold decodeInto
  exact decodeInto_length f m.length (List.range m.length) m

theorem blockAmo_cells_mem (size : Nat) (hs : isqrt size * isqrt size = size)
    (n : Nat) (hn : n < size) (p q : Nat × Nat)
    (hp1 : p.1 < size) (hp2 : p.2 < size) (hq1 : q.1 < size) (hq2 : q.2 < size)
    (hbr : p.1 / isqrt size = q.1 / isqrt size)
    (hbc : p.2 / isqrt size = q.2 / isqrt size) (hne : p ≠ q) :
    [negLit (lit_from_indx p.1 p.2 n size),
     negLit (lit_from_indx q.1 q.2 n size)] ∈ blockAmoClauses size ∨
    [negLit (lit_from_indx q.1 q.2 n size),
     negLit (lit_from_indx p.1 p.2 n size)] ∈ blockAmoClauses size := by
  have hs0 : 0 < isqrt size := by
    rcases Nat.eq_zero_or_pos (isqrt size) with h | h
    · rw [h] at hs; omega
    · exact h
  have hdix : ∀ a b : Nat, b < isqrt size →
      (a * isqrt size + b) / isqrt size = a := by
    intro a b hb
    rw [Nat.mul_comm, Nat.mul_add_div hs0, Nat.div_eq_of_lt hb, Nat.add_zero]
  have hmix : ∀ a b : Nat, b < isqrt size →
      (a * isqrt size + b) % isqrt size = b := by
    intro a b hb
    rw [Nat.mul_comm, Nat.mul_add_mod, Nat.mod_eq_of_lt hb]
  have hlt : ∀ a b : Nat, a < isqrt size → b < isqrt size →
      a * isqrt size + b < size := by
    intro a b ha hb
    calc a * isqrt size + b < a * isqrt size + isqrt size := by omega
      _ = (a + 1) * isqrt size := by ring
      _ ≤ isqrt size * isqrt size := Nat.mul_le_mul_right _ (by omega)
      _ = size := hs
  have hmod1 : p.1 % isqrt size < isqrt size := Nat.mod_lt _ hs0
  have hmod2 : p.2 % isqrt size < isqrt size := Nat.mod_lt _ hs0
  have hmod3 : q.1 % isqrt size < isqrt size := Nat.mod_lt _ hs0
  have hmod4 : q.2 % isqrt size < isqrt size := Nat.mod_lt _ hs0
  have hbrlt : p.1 / isqrt size < isqrt size :=
    (Nat.div_lt_iff_lt_mul hs0).mpr (by omega)
  have hbclt : p.2 / isqrt size < isqrt size :=
    (Nat.div_lt_iff_lt_mul hs0).mpr (by omega)
  have hrec1 : p.1 / isqrt size * isqrt size + p.1 % isqrt size = p.1 := by
    rw [Nat.mul_comm]
    exact Nat.div_add_mod p.1 (isqrt size)
  have hrec2 : p.2 / isqrt size * isqrt size + p.2 % isqrt size = p.2 := by
    rw [Nat.mul_comm]
    exact Nat.div_add_mod p.2 (isqrt size)
  have hrec3 : q.1 / isqrt size * isqrt size + q.1 % isqrt size = q.1 := by
    rw [Nat.mul_comm]
    exact Nat.div_add_mod q.1 (isqrt size)
  have hrec4 : q.2 / isqrt size * isqrt size + q.2 % isqrt size = q.2 := by
    rw [Nat.mul_comm]
    exact Nat.div_add_mod q.2 (isqrt size)
  have hij : p.1 % isqrt size * isqrt size + p.2 % isqrt size ≠
      q.1 % isqrt size * isqrt size + q.2 % isqrt size := by
    intro hc
    have e1 : p.1 % isqrt size = q.1 % isqrt size := by
      have d1 := hdix (p.1 % isqrt size) (p.2 % isqrt size) hmod2
      have d2 := hdix (q.1 % isqrt size) (q.2 % isqrt size) hmod4
      rw [← d1, ← d2, hc]
    have e2 : p.2 % isqrt size = q.2 % isqrt size := by
      have d1 := hmix (p.1 % isqrt size) (p.2 % isqrt size) hmod2
      have d2 := hmix (q.1 % isqrt size) (q.2 % isqrt size) hmod4
      rw [← d1, ← d2, hc]
    apply hne
    have hp1eq : p.1 = q.1 := by
      rw [← hrec1, ← hrec3, e1, hbr]
    have hp2eq : p.2 = q.2 := by
      rw [← hrec2, ← hrec4, e2, hbc]
    exact Prod.ext_iff.mpr ⟨hp1eq, hp2eq⟩
  rcases Nat.lt_or_ge (p.1 % isqrt size * isqrt size + p.2 % isqrt size)
      (q.1 % isqrt size * isqrt size + q.2 % isqrt size) with hltij | hgeij
  · left
    have hmem := blockAmo_clause_mem size (p.1 / isqrt size)
      (p.2 / isqrt size) n
      (p.1 % isqrt size * isqrt size + p.2 % isqrt size)
      (q.1 % isqrt size * isqrt size + q.2 % isqrt size)
      hbrlt hbclt hn hltij (hlt _ _ hmod3 hmod4)
    rw [hdix _ _ hmod2, hmix _ _ hmod2, hdix _ _ hmod4, hmix _ _ hmod4,
      hrec1, hrec2] at hmem
    rw [hbr, hbc] at hmem
    rw [hrec3, hrec4] at hmem
    exact hmem
  · right
    have hltji : q.1 % isqrt size * isqrt size + q.2 % isqrt size <
        p.1 % isqrt size * isqrt size + p.2 % isqrt size := by omega
    have hmem := blockAmo_clause_mem size (p.1 / isqrt size)
      (p.2 / isqrt size) n
      (q.1 % isqrt size * isqrt size + q.2 % isqrt size)
      (p.1 % isqrt size * isqrt size + p.2 % isqrt size)
      hbrlt hbclt hn hltji (hlt _ _ hmod1 hmod2)
    rw [hdix _ _ hmod2, hmix _ _ hmod2, hdix _ _ hmod4, hmix _ _ hmod4,
      hrec1, hrec2] at hmem
    rw [hbr, hbc] at hmem
    rw [hrec3, hrec4] at hmem
    exact hmem

-- The SAT half of C1: any model of the encoding decodes to a solved grid ------

theorem sat_decode_solved (m0 : SMatrix)
    (hsq : squareGridB m0 = true)
    (hs : isqrt m0.length * isqrt m0.length = m0.length)
    (f : SAssign) (hf : formulaSat f (sudoku_to_sat m0) = true) :
    isSolvedGrid (decodeInto f m0.length m0) = true := by
  have hsq' := squareGridB_spec m0 hsq
  have hall := List.all_eq_true.mp hf
  have hmdlen : (decodeInto f m0.length m0).length = m0.length :=
    decodeInto_len f m0
  have hpick : ∀ r c, r < m0.length → c < m0.length →
      ∃ n0, n0 < m0.length ∧
        getCell (decodeInto f m0.length m0) r c = (n0 : Int) + 1 ∧
        litSat f (lit_from_indx r c n0 m0.length) = true := by
    intro r c hr hc
    have halo := hall _ (sudoku_to_sat_mem m0 _
      (Or.inl (alo_clause_mem m0.length r c hr hc)))
    obtain ⟨n0, hn0, hpk, hlit⟩ := decodePick_spec f m0.length r c halo
    refine ⟨n0, hn0, ?_, hlit⟩
    rw [decodeInto_spec f m0 hsq' r c hr hc]
    exact hpk
  have hfill : AllFilled (decodeInto f m0.length m0) := by
    intro r c hr hc
    rw [hmdlen] at hr hc ⊢
    obtain ⟨n0, hn0, heq, -⟩ := hpick r c hr hc
    rw [heq]
    constructor <;> omega
  have hpw : PairwiseOK (decodeInto f m0.length m0) := by
    intro p q hp1 hp2 hq1 hq2 hne hsame heqv
    rw [hmdlen] at hp1 hp2 hq1 hq2
    rw [show isqrt (decodeInto f m0.length m0).length = isqrt m0.length by
      rw [hmdlen]] at hsame
    obtain ⟨n1, hn1, he1, hl1⟩ := hpick p.1 p.2 hp1 hp2
    obtain ⟨n2, hn2, he2, hl2⟩ := hpick q.1 q.2 hq1 hq2
    have hn12 : n1 = n2 := by
      rw [he1, he2] at heqv
      omega
    subst hn12
    rcases hsame with hrow | hcol | ⟨hbr, hbc⟩
    · have hcne : p.2 ≠ q.2 := fun hc2 =>
        hne (Prod.ext_iff.mpr ⟨hrow, hc2⟩)
      have hl2' : litSat f (lit_from_indx p.1 q.2 n1 m0.length) = true := by
        rw [hrow]
        exact hl2
      rcases Nat.lt_or_ge p.2 q.2 with hlt | hge
      · exact amo_contradiction f _ _ (hall _ (sudoku_to_sat_mem m0 _
          (Or.inr (Or.inl (rowAmo_clause_mem m0.length p.1 n1 p.2 q.2
            hp1 hn1 hlt hq2))))) hl1 hl2'
      · exact amo_contradiction f _ _ (hall _ (sudoku_to_sat_mem m0 _
          (Or.inr (Or.inl (rowAmo_clause_mem m0.length p.1 n1 q.2 p.2
            hp1 hn1 (by omega) hp2))))) hl2' hl1
    · have hrne : p.1 ≠ q.1 := fun hc1 =>
        hne (Prod.ext_iff.mpr ⟨hc1, hcol⟩)
      have hl2' : litSat f (lit_from_indx q.1 p.2 n1 m0.length) = true := by
        rw [hcol]
        exact hl2
      rcases Nat.lt_or_ge p.1 q.1 with hlt | hge
      · exact amo_contradiction f _ _ (hall _ (sudoku_to_sat_mem m0 _
          (Or.inr (Or.inr (Or.inl (colAmo_clause_mem m0.length p.2 n1 p.1 q.1
            hp2 hn1 hlt hq1)))))) hl1 hl2'
      · exact amo_contradiction f _ _ (hall _ (sudoku_to_sat_mem m0 _
          (Or.inr (Or.inr (Or.inl (colAmo_clause_mem m0.length p.2 n1 q.1 p.1
            hp2 hn1 (by omega) hp1)))))) hl2' hl1
    · rcases blockAmo_cells_mem m0.length hs n1 hn1 p q hp1 hp2 hq1 hq2
        hbr hbc hne with hcl | hcl
      · exact amo_contradiction f _ _ (hall _ (sudoku_to_sat_mem m0 _
          (Or.inr (Or.inr (Or.inr (Or.inl hcl)))))) hl1 hl2
      · exact amo_contradiction f _ _ (hall _ (sudoku_to_sat_mem m0 _
          (Or.inr (Or.inr (Or.inr (Or.inl hcl)))))) hl2 hl1
  exact solved_of_pairwise (decodeInto f m0.length m0)
    (by rw [hmdlen]; exact hs) hfill hpw

-- Claim C1 --------------------------------------------------------------------

theorem solveLoop_mono (positions : List (Nat × Nat)) (size : Nat) :
    ∀ (f1 : Nat) (m : SMatrix) (i : Nat) (r : SMatrix × Bool) (f2 : Nat),
      f1 ≤ f2 → solveLoop positions size f1 m i = some r →
      solveLoop positions size f2 m i = some r := by
  intro f1
  induction f1 with
  | zero =>
    intro m i r f2 _ h
    cases h
  | succ f1 ih =>
    intro m i r f2 hle h
    obtain ⟨f2', rfl⟩ : ∃ f2', f2 = f2' + 1 := ⟨f2 - 1, by omega⟩
    rw [solveLoop] at h ⊢
    cases hstep : solveStep positions size m i with
    | inr res =>
      rw [hstep] at h
      exact h
    | inl next =>
      rw [hstep] at h
      exact ih next.1 next.2 r f2' (by omega) h

/-- C1 amended: on a well-formed grid (square, perfect-square side, entries
`0..=size`) whose nonzero cells each pass `is_value_valid`, every successful
solve — `solve_backtracking` returning `true`, or `solve_sat` succeeding
under the engine contract — leaves a grid that is fully filled with digits
`1..=size` and has every digit exactly once in every row, column and block. -/
theorem claim_C1_amended (m0 : SMatrix)
    (hsq : squareGridB m0 = true)
    (hs : isqrt m0.length * isqrt m0.length = m0.length)
    (hrange : entriesInRange m0 = true)
    (hcons : consistentFilled m0 = true) :
    (∀ mf : SMatrix, solve_backtracking m0 = (mf, true) →
      isSolvedGrid mf = true) ∧
    (∀ (engine : Option SAssign) (mf : SMatrix),
      EngineOk (sudoku_to_sat m0) engine →
      solve_sat engine m0 = (mf, true) →
      isSolvedGrid mf = true) := by
  constructor
  · intro mf hrun
    exact bt_sound_final m0 hsq hs hrange hcons mf hrun
  · intro engine mf hok hrun
    cases engine with
    | none =>
      have hfalse : (false : Bool) = true := congrArg Prod.snd hrun
      cases hfalse
    | some f =>
      have hmf : decodeInto f m0.length m0 = mf := congrArg Prod.fst hrun
      rw [← hmf]
      exact sat_decode_solved m0 hsq hs f hok

/-- C1 witness: the single-clue 4×4 puzzle `seed4`; backtracking solves it
and the result satisfies the exactly-once property. -/
theorem claim_C1_witness :
    solve_backtracking seed4 = (seed4sol, true) ∧
    isSolvedGrid seed4sol = true := by
  have hrun : solve_backtracking seed4 = (seed4sol, true) := by
    unfold solve_backtracking
    have h1 : solveLoop (blankPositions seed4) seed4.length 50 seed4 0 =
        some (seed4sol, true) := by decide
    rw [solveLoop_mono (blankPositions seed4) seed4.length 50 seed4 0
      (seed4sol, true) (btFuel seed4) (by decide) h1]
    rfl
  exact ⟨hrun, (claim_C1_amended seed4 (by decide) (by decide) (by decide)
    (by decide)).1 seed4sol hrun⟩

-- Claim C5: round trip on an already-solved grid ------------------------------

theorem find?_range_eq (p : Nat → Bool) (k : Nat) :
    ∀ n, k < n → p k = true → (∀ e, e < k → p e = false) →
      (List.range n).find? p = some k := by
  intro n
  induction n with
  | zero => intro h; omega
  | succ n ih =>
    intro hk hpk hmin
    rw [List.range_succ, List.find?_append]
    by_cases hkn : k < n
    · rw [ih hkn hpk hmin]
      rfl
    · have hkeq : k = n := by omega
      subst hkeq
      have hnone : (List.range k).find? p = none := by
        rw [List.find?_eq_none]
        intro e he
        simp only [List.mem_range] at he
        simp [hmin e he]
      rw [hnone]
      simp [hpk]

theorem rowCount_one_exists (m : SMatrix) (r : Nat) (d : Int)
    (h : rowCount m r d = 1) :
    ∃ c, c < m.length ∧ getCell m r c = d := by
  unfold rowCount at h
  have hne : ((List.range m.length).filter
      (fun c => getCell m r c == d)) ≠ [] := by
    intro hc
    rw [hc] at h
    cases h
  obtain ⟨c, hc⟩ := List.exists_mem_of_ne_nil _ hne
  have := List.mem_filter.mp hc
  exact ⟨c, List.mem_range.mp this.1, by simpa using this.2⟩

-- Decomposing membership in the clause families -------------------------------

theorem alo_clause_elim (size : Nat) (cl : List SLit)
    (h : cl ∈ aloClauses size) :
    ∃ r c, r < size ∧ c < size ∧
      cl = (List.range size).map (fun n => lit_from_indx r c n size) := by
  unfold aloClauses at h
  rw [List.mem_flatMap] at h
  obtain ⟨r, hr, hm⟩ := h
  obtain ⟨c, hc, rfl⟩ := List.mem_map.mp hm
  exact ⟨r, c, List.mem_range.mp hr, List.mem_range.mp hc, rfl⟩

theorem rowAmo_clause_elim (size : Nat) (cl : List SLit)
    (h : cl ∈ rowAmoClauses size) :
    ∃ r n c1 c2, r < size ∧ n < size ∧ c1 < c2 ∧ c2 < size ∧
      cl = [negLit (lit_from_indx r c1 n size),
            negLit (lit_from_indx r c2 n size)] := by
  unfold rowAmoClauses at h
  rw [List.mem_flatMap] at h
  obtain ⟨r, hr, h⟩ := h
  rw [List.mem_flatMap] at h
  obtain ⟨n, hn, h⟩ := h
  rw [List.mem_flatMap] at h
  obtain ⟨c1, hc1, h⟩ := h
  obtain ⟨c2, hc2, rfl⟩ := List.mem_map.mp h
  obtain ⟨hc2r, hc2f⟩ := List.mem_filter.mp hc2
  exact ⟨r, n, c1, c2, List.mem_range.mp hr, List.mem_range.mp hn,
    by simpa using hc2f, List.mem_range.mp hc2r, rfl⟩

theorem colAmo_clause_elim (size : Nat) (cl : List SLit)
    (h : cl ∈ colAmoClauses size) :
    ∃ c n r1 r2, c < size ∧ n < size ∧ r1 < r2 ∧ r2 < size ∧
      cl = [negLit (lit_from_indx r1 c n size),
            negLit (lit_from_indx r2 c n size)] := by
  unfold colAmoClauses at h
  rw [List.mem_flatMap] at h
  obtain ⟨c, hc, h⟩ := h
  rw [List.mem_flatMap] at h
  obtain ⟨n, hn, h⟩ := h
  rw [List.mem_flatMap] at h
  obtain ⟨r1, hr1, h⟩ := h
  obtain ⟨r2, hr2, rfl⟩ := List.mem_map.mp h
  obtain ⟨hr2r, hr2f⟩ := List.mem_filter.mp hr2
  exact ⟨c, n, r1, r2, List.mem_range.mp hc, List.mem_range.mp hn,
    by simpa using hr2f, List.mem_range.mp hr2r, rfl⟩

theorem blockAmo_clause_elim (size : Nat) (cl : List SLit)
    (h : cl ∈ blockAmoClauses size) :
    ∃ br bc n i j, br < isqrt size ∧ bc < isqrt size ∧ n < size ∧
      i < j ∧ j < size ∧
      cl = [negLit (lit_from_indx (br * isqrt size + i / isqrt size)
              (bc * isqrt size + i % isqrt size) n size),
            negLit (lit_from_indx (br * isqrt size + j / isqrt size)
              (bc * isqrt size + j % isqrt size) n size)] := by
  unfold blockAmoClauses at h
  simp only [] at h
  rw [List.mem_flatMap] at h
  obtain ⟨br, hbr, h⟩ := h
  rw [List.mem_flatMap] at h
  obtain ⟨bc, hbc, h⟩ := h
  rw [List.mem_flatMap] at h
  obtain ⟨n, hn, h⟩ := h
  rw [List.mem_flatMap] at h
  obtain ⟨i, hi, h⟩ := h
  obtain ⟨j, hj, rfl⟩ := List.mem_map.mp h
  obtain ⟨hjr, hjf⟩ := List.mem_filter.mp hj
  exact ⟨br, bc, n, i, j, List.mem_range.mp hbr, List.mem_range.mp hbc,
    List.mem_range.mp hn, by simpa using hjf, List.mem_range.mp hjr, rfl⟩

theorem unit_clause_elim (m : SMatrix) (cl : List SLit)
    (h : cl ∈ unitClauses m) :
    ∃ r c, r < m.length ∧ c < m.length ∧ getCell m r c ≠ 0 ∧
      cl = [lit_from_indx r c (getCell m r c - 1).toNat m.length] := by
  unfold unitClauses at h
  rw [List.mem_flatMap] at h
  obtain ⟨r, hr, h⟩ := h
  obtain ⟨c, hc, rfl⟩ := List.mem_map.mp h
  obtain ⟨hcr, hcf⟩ := List.mem_filter.mp hc
  exact ⟨r, c, List.mem_range.mp hr, List.mem_range.mp hcr,
    by simpa using hcf, rfl⟩

theorem unit_clause_mem (m : SMatrix) (r c : Nat) (hr : r < m.length)
    (hc : c < m.length) (hnz : getCell m r c ≠ 0) :
    [lit_from_indx r c (getCell m r c - 1).toNat m.length] ∈
      unitClauses m := by
  unfold unitClauses
  rw [List.mem_flatMap]
  refine ⟨r, List.mem_range.mpr hr, ?_⟩
  exact List.mem_map.mpr ⟨c, List.mem_filter.mpr
    ⟨List.mem_range.mpr hc, by simpa using hnz⟩, rfl⟩

-- The grid's own model ---------------------------------------------------------

theorem modelOfGrid_lit (mc : SMatrix) (r c n : Nat)
    (hr : r < mc.length) (hc : c < mc.length) (hn : n < mc.length) :
    modelOfGrid mc (lit_from_indx r c n mc.length).1 =
      (getCell mc r c == (n : Int) + 1) := by
  have hs0 : 0 < mc.length := by omega
  unfold modelOfGrid lit_from_indx
  have e0 : (n + mc.length * (c + mc.length * r)) / mc.length =
      c + mc.length * r := by
    rw [Nat.add_mul_div_left _ _ hs0, Nat.div_eq_of_lt hn, Nat.zero_add]
  have e3 : (n + mc.length * (c + mc.length * r)) % mc.length = n := by
    rw [Nat.add_mul_mod_self_left, Nat.mod_eq_of_lt hn]
  have e1 : (n + mc.length * (c + mc.length * r)) /
      (mc.length * mc.length) = r := by
    rw [← Nat.div_div_eq_div_mul, e0, Nat.add_mul_div_left _ _ hs0,
      Nat.div_eq_of_lt hc, Nat.zero_add]
  have e2 : (n + mc.length * (c + mc.length * r)) / mc.length % mc.length =
      c := by
    rw [e0, Nat.add_mul_mod_self_left, Nat.mod_eq_of_lt hc]
  rw [e1, e2, e3]

-- From solved grid back to its pairwise properties ----------------------------

theorem two_mem_le_length {α : Type} [DecidableEq α] (l : List α) (a b : α)
    (hab : a ≠ b) (ha : a ∈ l) (hb : b ∈ l) (hnd : l.Nodup) :
    2 ≤ l.length := by
  have hsub : ({a, b} : Finset α) ⊆ l.toFinset := by
    intro x hx
    rw [List.mem_toFinset]
    rcases Finset.mem_insert.mp hx with h | h
    · rw [h]; exact ha
    · rw [Finset.mem_singleton.mp h]; exact hb
  have hcard : ({a, b} : Finset α).card = 2 := Finset.card_pair hab
  have := Finset.card_le_card hsub
  rw [hcard, List.toFinset_card_of_nodup hnd] at this
  exact this

theorem blockCells_nodup (s br bc : Nat) :
    ((List.range s).flatMap (fun i => (List.range s).map (fun j =>
      (br * s + i, bc * s + j)))).Nodup := by
  rw [List.nodup_flatMap]
  constructor
  · intro i _
    exact (List.nodup_range _).map (fun a b h => by
      have := congrArg Prod.snd h
      simpa using this)
  · apply List.Pairwise.imp ?_ (List.pairwise_lt_range _)
    intro a b hab x hxa hxb
    obtain ⟨j1, hj1, rfl⟩ := List.mem_map.mp hxa
    obtain ⟨j2, hj2, hx2⟩ := List.mem_map.mp hxb
    have := congrArg Prod.fst hx2
    simp only at this
    omega

theorem mem_blockCells (s br bc : Nat) (p : Nat × Nat)
    (hbr : p.1 / s = br) (hbc : p.2 / s = bc) (hs0 : 0 < s) :
    p ∈ (List.range s).flatMap (fun i => (List.range s).map (fun j =>
      (br * s + i, bc * s + j))) := by
  rw [List.mem_flatMap]
  refine ⟨p.1 % s, List.mem_range.mpr (Nat.mod_lt _ hs0), ?_⟩
  refine List.mem_map.mpr ⟨p.2 % s, List.mem_range.mpr (Nat.mod_lt _ hs0), ?_⟩
  have h1 : br * s + p.1 % s = p.1 := by
    rw [← hbr, Nat.mul_comm]
    exact Nat.div_add_mod p.1 s
  have h2 : bc * s + p.2 % s = p.2 := by
    rw [← hbc, Nat.mul_comm]
    exact Nat.div_add_mod p.2 s
  rw [h1, h2]

theorem isqrt_pos (n : Nat) (hn : 0 < n) : 0 < isqrt n := by
  rw [isqrt_eq]
  exact Nat.sqrt_pos.mpr hn

theorem pairwise_of_solved (m : SMatrix)
    (hs : isqrt m.length * isqrt m.length = m.length)
    (hsolved : isSolvedGrid m = true) : AllFilled m ∧ PairwiseOK m := by
  unfold isSolvedGrid at hsolved
  simp only [Bool.and_eq_true, List.all_eq_true, List.mem_range] at hsolved
  obtain ⟨⟨⟨hbounds, hrows⟩, hcols⟩, hblocks⟩ := hsolved
  have hall : AllFilled m := by
    intro r c hr hc
    have := hbounds r hr c hc
    simp only [Bool.and_eq_true, decide_eq_true_eq] at this
    exact this
  refine ⟨hall, ?_⟩
  intro p q hp1 hp2 hq1 hq2 hne hsame heqv
  have hdmem : getCell m p.1 p.2 ∈ digitList m.length :=
    (mem_digitList _ _).mpr (hall p.1 p.2 hp1 hp2)
  rcases hsame with hrow | hcol | ⟨hbr, hbc⟩
  · have hcount := hrows p.1 hp1 _ hdmem
    rw [beq_iff_eq] at hcount
    unfold rowCount at hcount
    have hcne : p.2 ≠ q.2 := fun hc2 => hne (Prod.ext_iff.mpr ⟨hrow, hc2⟩)
    have hmem1 : p.2 ∈ (List.range m.length).filter
        (fun c => getCell m p.1 c == getCell m p.1 p.2) :=
      List.mem_filter.mpr ⟨List.mem_range.mpr hp2, by simp⟩
    have hmem2 : q.2 ∈ (List.range m.length).filter
        (fun c => getCell m p.1 c == getCell m p.1 p.2) :=
      List.mem_filter.mpr ⟨List.mem_range.mpr hq2,
        by rw [hrow] at heqv ⊢; simp [← heqv]⟩
    have := two_mem_le_length _ p.2 q.2 hcne hmem1 hmem2
      ((List.nodup_range _).filter _)
    omega
  · have hcount := hcols p.2 hp2 _ hdmem
    rw [beq_iff_eq] at hcount
    unfold colCount at hcount
    have hrne : p.1 ≠ q.1 := fun hc1 => hne (Prod.ext_iff.mpr ⟨hc1, hcol⟩)
    have hmem1 : p.1 ∈ (List.range m.length).filter
        (fun r => getCell m r p.2 == getCell m p.1 p.2) :=
      List.mem_filter.mpr ⟨List.mem_range.mpr hp1, by simp⟩
    have hmem2 : q.1 ∈ (List.range m.length).filter
        (fun r => getCell m r p.2 == getCell m p.1 p.2) :=
      List.mem_filter.mpr ⟨List.mem_range.mpr hq1,
        by rw [hcol] at heqv ⊢; simp [← heqv]⟩
    have := two_mem_le_length _ p.1 q.1 hrne hmem1 hmem2
      ((List.nodup_range _).filter _)
    omega
  · have hs0 : 0 < isqrt m.length := isqrt_pos m.length (by omega)
    have hbrlt : p.1 / isqrt m.length < isqrt m.length :=
      (Nat.div_lt_iff_lt_mul hs0).mpr (by omega)
    have hbclt : p.2 / isqrt m.length < isqrt m.length :=
      (Nat.div_lt_iff_lt_mul hs0).mpr (by omega)
    have hcount := hblocks (p.1 / isqrt m.length) hbrlt
      (p.2 / isqrt m.length) hbclt _ hdmem
    rw [beq_iff_eq, blockCount_as_cells] at hcount
    have hpmem : p ∈ (List.range (isqrt m.length)).flatMap (fun i =>
        (List.range (isqrt m.length)).map (fun j =>
          (p.1 / isqrt m.length * isqrt m.length + i,
           p.2 / isqrt m.length * isqrt m.length + j))) :=
      mem_blockCells _ _ _ p rfl rfl hs0
    have hqmem : q ∈ (List.range (isqrt m.length)).flatMap (fun i =>
        (List.range (isqrt m.length)).map (fun j =>
          (p.1 / isqrt m.length * isqrt m.length + i,
           p.2 / isqrt m.length * isqrt m.length + j))) :=
      mem_blockCells _ _ _ q hbr.symm hbc.symm hs0
    have hfmem1 : p ∈ ((List.range (isqrt m.length)).flatMap (fun i =>
        (List.range (isqrt m.length)).map (fun j =>
          (p.1 / isqrt m.length * isqrt m.length + i,
           p.2 / isqrt m.length * isqrt m.length + j)))).filter
        (fun x => getCell m x.1 x.2 == getCell m p.1 p.2) :=
      List.mem_filter.mpr ⟨hpmem, by simp⟩
    have hfmem2 : q ∈ ((List.range (isqrt m.length)).flatMap (fun i =>
        (List.range (isqrt m.length)).map (fun j =>
          (p.1 / isqrt m.length * isqrt m.length + i,
           p.2 / isqrt m.length * isqrt m.length + j)))).filter
        (fun x => getCell m x.1 x.2 == getCell m p.1 p.2) :=
      List.mem_filter.mpr ⟨hqmem, by simp [← heqv]⟩
    have h2 := two_mem_le_length _ p q hne hfmem1 hfmem2
      ((blockCells_nodup _ _ _).filter _)
    omega

theorem litSat_pos (f : SAssign) (r c n size : Nat) :
    litSat f (lit_from_indx r c n size) =
      f (lit_from_indx r c n size).1 := by
  unfold litSat lit_from_indx
  simp

theorem clauseSat_pair_left (f : SAssign) (a b : SLit)
    (h : f a.1 = false) (ha : a.2 = true) :
    clauseSat f [negLit a, negLit b] = true := by
  simp [clauseSat, litSat, negLit, h, ha]

theorem clauseSat_pair_right (f : SAssign) (a b : SLit)
    (h : f b.1 = false) (hb : b.2 = true) :
    clauseSat f [negLit a, negLit b] = true := by
  simp [clauseSat, litSat, negLit, h, hb]

theorem model_sat_of_solved (m0 mc : SMatrix)
    (hs : isqrt m0.length * isqrt m0.length = m0.length)
    (hcomp : CompletionOf m0 mc)
    (hsolved : isSolvedGrid mc = true) :
    formulaSat (modelOfGrid mc) (sudoku_to_sat m0) = true := by
  obtain ⟨hclen, hagree⟩ := hcomp
  have hlen' : m0.length = mc.length := hclen.symm
  have hs' : isqrt mc.length * isqrt mc.length = mc.length := by
    rw [hclen]
    exact hs
  obtain ⟨hall, hpw⟩ := pairwise_of_solved mc hs' hsolved
  rw [formulaSat, List.all_eq_true]
  intro cl hcl
  unfold sudoku_to_sat at hcl
  simp only [List.mem_append] at hcl
  rcases hcl with ((((h | h) | h) | h) | h)
  · -- at-least-one clauses
    obtain ⟨r, c, hr, hc, rfl⟩ := alo_clause_elim _ _ h
    rw [hlen'] at hr hc ⊢
    obtain ⟨hv1, hv2⟩ := hall r c hr hc
    unfold clauseSat
    rw [List.any_eq_true]
    refine ⟨lit_from_indx r c (getCell mc r c - 1).toNat mc.length,
      List.mem_map.mpr ⟨(getCell mc r c - 1).toNat,
        List.mem_range.mpr (by omega), rfl⟩, ?_⟩
    rw [litSat_pos, modelOfGrid_lit mc r c _ hr hc (by omega), beq_iff_eq]
    omega
  · -- row at-most-one clauses
    obtain ⟨r, n0, c1, c2, hr, hn0, h12, h2, rfl⟩ := rowAmo_clause_elim _ _ h
    rw [hlen'] at hr hn0 h2 ⊢
    by_cases hA : modelOfGrid mc (lit_from_indx r c1 n0 mc.length).1 = true
    · by_cases hB : modelOfGrid mc (lit_from_indx r c2 n0 mc.length).1 = true
      · exfalso
        rw [modelOfGrid_lit mc r c1 n0 hr (by omega) hn0, beq_iff_eq] at hA
        rw [modelOfGrid_lit mc r c2 n0 hr h2 hn0, beq_iff_eq] at hB
        exact hpw (r, c1) (r, c2) hr (by omega) hr h2
          (fun hcc => by
            have := congrArg Prod.snd hcc
            simp only at this
            omega)
          (Or.inl rfl) (by rw [hA, hB])
      · exact clauseSat_pair_right _ _ _
          (Bool.not_eq_true _ ▸ hB) rfl
    · exact clauseSat_pair_left _ _ _
        (Bool.not_eq_true _ ▸ hA) rfl
  · -- column at-most-one clauses
    obtain ⟨c, n0, r1, r2, hc, hn0, h12, h2, rfl⟩ := colAmo_clause_elim _ _ h
    rw [hlen'] at hc hn0 h2 ⊢
    by_cases hA : modelOfGrid mc (lit_from_indx r1 c n0 mc.length).1 = true
    · by_cases hB : modelOfGrid mc (lit_from_indx r2 c n0 mc.length).1 = true
      · exfalso
        rw [modelOfGrid_lit mc r1 c n0 (by omega) hc hn0, beq_iff_eq] at hA
        rw [modelOfGrid_lit mc r2 c n0 h2 hc hn0, beq_iff_eq] at hB
        exact hpw (r1, c) (r2, c) (by omega) hc h2 hc
          (fun hcc => by
            have := congrArg Prod.fst hcc
            simp only at this
            omega)
          (Or.inr (Or.inl rfl)) (by rw [hA, hB])
      · exact clauseSat_pair_right _ _ _
          (Bool.not_eq_true _ ▸ hB) rfl
    · exact clauseSat_pair_left _ _ _
        (Bool.not_eq_true _ ▸ hA) rfl
  · -- block at-most-one clauses
    obtain ⟨br, bc, n0, i, j, hbr, hbc, hn0, hij, hj, rfl⟩ :=
      blockAmo_clause_elim _ _ h
    rw [hlen'] at hbr hbc hn0 hj ⊢
    have hs0 : 0 < isqrt mc.length := by
      rcases Nat.eq_zero_or_pos (isqrt mc.length) with h0 | h0
      · rw [h0] at hbr; omega
      · exact h0
    have hdivlt : ∀ k : Nat, k < mc.length →
        k / isqrt mc.length < isqrt mc.length := by
      intro k hk
      exact (Nat.div_lt_iff_lt_mul hs0).mpr (by omega)
    have hcelllt : ∀ a b : Nat, a < isqrt mc.length → b < isqrt mc.length →
        a * isqrt mc.length + b < mc.length := by
      intro a b ha hb
      calc a * isqrt mc.length + b < a * isqrt mc.length + isqrt mc.length := by
            omega
        _ = (a + 1) * isqrt mc.length := by ring
        _ ≤ isqrt mc.length * isqrt mc.length :=
            Nat.mul_le_mul_right _ (by omega)
        _ = mc.length := hs'
    have hdix : ∀ a b : Nat, b < isqrt mc.length →
        (a * isqrt mc.length + b) / isqrt mc.length = a := by
      intro a b hb
      rw [Nat.mul_comm, Nat.mul_add_div hs0, Nat.div_eq_of_lt hb,
        Nat.add_zero]
    have hb1 : br * isqrt mc.length + i / isqrt mc.length < mc.length :=
      hcelllt _ _ hbr (hdivlt i (by omega))
    have hb2 : bc * isqrt mc.length + i % isqrt mc.length < mc.length :=
      hcelllt _ _ hbc (Nat.mod_lt _ hs0)
    have hb3 : br * isqrt mc.length + j / isqrt mc.length < mc.length :=
      hcelllt _ _ hbr (hdivlt j hj)
    have hb4 : bc * isqrt mc.length + j % isqrt mc.length < mc.length :=
      hcelllt _ _ hbc (Nat.mod_lt _ hs0)
    by_cases hA : modelOfGrid mc (lit_from_indx
        (br * isqrt mc.length + i / isqrt mc.length)
        (bc * isqrt mc.length + i % isqrt mc.length) n0 mc.length).1 = true
    · by_cases hB : modelOfGrid mc (lit_from_indx
          (br * isqrt mc.length + j / isqrt mc.length)
          (bc * isqrt mc.length + j % isqrt mc.length) n0 mc.length).1 = true
      · exfalso
        rw [modelOfGrid_lit mc _ _ n0 hb1 hb2 hn0, beq_iff_eq] at hA
        rw [modelOfGrid_lit mc _ _ n0 hb3 hb4 hn0, beq_iff_eq] at hB
        have hcne : (br * isqrt mc.length + i / isqrt mc.length,
            bc * isqrt mc.length + i % isqrt mc.length) ≠
            (br * isqrt mc.length + j / isqrt mc.length,
             bc * isqrt mc.length + j % isqrt mc.length) := by
          intro hcc
          have e1 := congrArg Prod.fst hcc
          have e2 := congrArg Prod.snd hcc
          simp only at e1 e2
          have e1' : i / isqrt mc.length = j / isqrt mc.length :=
            Nat.add_left_cancel e1
          have e2' : i % isqrt mc.length = j % isqrt mc.length :=
            Nat.add_left_cancel e2
          have hi_eq : i = j := by
            have d1 := Nat.div_add_mod i (isqrt mc.length)
            have d2 := Nat.div_add_mod j (isqrt mc.length)
            rw [← d1, ← d2, e1', e2']
          omega
        apply hpw _ _ hb1 hb2 hb3 hb4 hcne ?_ (by rw [hA, hB])
        right; right
        constructor
        · rw [hdix _ _ (hdivlt i (by omega)), hdix _ _ (hdivlt j hj)]
        · rw [hdix _ _ (Nat.mod_lt _ hs0), hdix _ _ (Nat.mod_lt _ hs0)]
      · exact clauseSat_pair_right _ _ _
          (Bool.not_eq_true _ ▸ hB) rfl
    · exact clauseSat_pair_left _ _ _
        (Bool.not_eq_true _ ▸ hA) rfl
  · -- unit clauses
    obtain ⟨r, c, hr, hc, hnz, rfl⟩ := unit_clause_elim _ _ h
    have hagr := hagree r c hr hc hnz
    rw [hlen'] at hr hc ⊢
    obtain ⟨hv1, hv2⟩ := hall r c hr hc
    rw [hagr] at hv1 hv2
    unfold clauseSat
    rw [List.any_eq_true]
    refine ⟨_, List.mem_singleton_self _, ?_⟩
    rw [litSat_pos, modelOfGrid_lit mc r c _ hr hc (by omega), beq_iff_eq,
      hagr]
    omega

-- Decoding a model of an already-solved grid is the identity ------------------

theorem getCell_eq_getElem (m : SMatrix) (r c : Nat) (hr : r < m.length)
    (hc : c < m[r].length) : getCell m r c = m[r][c] := by
  unfold getCell
  rw [getD_eq_getElem_of_lt m r hr, List.getD_eq_getElem?_getD,
    List.getElem?_eq_getElem hc]
  rfl

theorem grid_ext (m1 m2 : SMatrix) (h1 : SquareGrid m1) (h2 : SquareGrid m2)
    (hlen : m1.length = m2.length)
    (hcell : ∀ r c, r < m1.length → c < m1.length →
      getCell m1 r c = getCell m2 r c) : m1 = m2 := by
  apply List.ext_getElem hlen
  intro r hr1 hr2
  have hrow1 : m1[r].length = m1.length := h1 _ (List.getElem_mem hr1)
  have hrow2 : m2[r].length = m1.length := by
    rw [h2 _ (List.getElem_mem hr2), hlen]
  apply List.ext_getElem (by rw [hrow1, hrow2])
  intro c hc1 hc2
  rw [← getCell_eq_getElem m1 r c hr1 hc1,
    ← getCell_eq_getElem m2 r c hr2 hc2]
  exact hcell r c hr1 (by omega)

theorem decode_identity (m0 : SMatrix)
    (hsq : squareGridB m0 = true)
    (hs : isqrt m0.length * isqrt m0.length = m0.length)
    (hsolved : isSolvedGrid m0 = true)
    (f : SAssign) (hf : formulaSat f (sudoku_to_sat m0) = true) :
    decodeInto f m0.length m0 = m0 := by
  have hsq' := squareGridB_spec m0 hsq
  obtain ⟨hall, hpw⟩ := pairwise_of_solved m0 hs hsolved
  have hallsat := List.all_eq_true.mp hf
  have hrowex : ∀ r d, r < m0.length → 1 ≤ d → d ≤ (m0.length : Int) →
      ∃ c', c' < m0.length ∧ getCell m0 r c' = d := by
    intro r d hr hd1 hd2
    unfold isSolvedGrid at hsolved
    simp only [Bool.and_eq_true, List.all_eq_true, List.mem_range] at hsolved
    obtain ⟨⟨⟨-, hrows⟩, -⟩, -⟩ := hsolved
    have := hrows r hr d ((mem_digitList _ _).mpr ⟨hd1, hd2⟩)
    rw [beq_iff_eq] at this
    exact rowCount_one_exists m0 r d this
  apply grid_ext _ _ (by
      unfold decodeInto
      exact decodeInto_square f m0.length (List.range m0.length) m0 hsq')
    hsq' (decodeInto_len f m0)
  intro r c hr hc
  rw [decodeInto_len] at hr hc
  rw [decodeInto_spec f m0 hsq' r c hr hc]
  obtain ⟨hv1, hv2⟩ := hall r c hr hc
  have hk : (List.range m0.length).find?
      (fun n => litSat f (lit_from_indx r c n m0.length)) =
      some (getCell m0 r c - 1).toNat := by
    apply find?_range_eq
    · omega
    · have hcl := hallsat _ (sudoku_to_sat_mem m0 _ (Or.inr (Or.inr
        (Or.inr (Or.inr (unit_clause_mem m0 r c hr hc (by omega)))))))
      simpa [clauseSat] using hcl
    · intro e he
      by_contra hnef
      rw [Bool.not_eq_false] at hnef
      obtain ⟨c', hc', hval⟩ := hrowex r ((e : Int) + 1) hr (by omega)
        (by omega)
      have hcne : c' ≠ c := by
        intro hcc
        rw [hcc] at hval
        omega
      have hclu := hallsat _ (sudoku_to_sat_mem m0 _ (Or.inr (Or.inr
        (Or.inr (Or.inr (unit_clause_mem m0 r c' hr hc' (by
          rw [hval]; omega)))))))
      have hlit' : litSat f (lit_from_indx r c'
          (getCell m0 r c' - 1).toNat m0.length) = true := by
        simpa [clauseSat] using hclu
      have hlite : litSat f (lit_from_indx r c' e m0.length) = true := by
        have he' : (getCell m0 r c' - 1).toNat = e := by
          rw [hval]
          omega
        rwa [he'] at hlit'
      rcases Nat.lt_or_ge c c' with hlt | hge
      · exact amo_contradiction f _ _ (hallsat _ (sudoku_to_sat_mem m0 _
          (Or.inr (Or.inl (rowAmo_clause_mem m0.length r e c c' hr
            (by omega) hlt hc'))))) hnef hlite
      · exact amo_contradiction f _ _ (hallsat _ (sudoku_to_sat_mem m0 _
          (Or.inr (Or.inl (rowAmo_clause_mem m0.length r e c' c hr
            (by omega) (by omega) hc))))) hlite hnef
  unfold decodePick
  rw [hk]
  show ((getCell m0 r c - 1).toNat : Int) + 1 = getCell m0 r c
  omega

-- Claim C5 --------------------------------------------------------------------

/-- C5: on a fully-filled, constraint-consistent well-formed grid,
`solve_sat` (with any engine meeting the contract) succeeds and the
encode–solve–decode round trip leaves every cell unchanged. -/
theorem claim_C5_roundtrip (m0 : SMatrix)
    (hsq : squareGridB m0 = true)
    (hs : isqrt m0.length * isqrt m0.length = m0.length)
    (hrange : entriesInRange m0 = true)
    (hfull : (List.range m0.length).all (fun r => (List.range m0.length).all
      (fun c => !(getCell m0 r c == 0))) = true)
    (hcons : consistentFilled m0 = true)
    (engine : Option SAssign) (hok : EngineOk (sudoku_to_sat m0) engine) :
    ∃ f, engine = some f ∧ solve_sat engine m0 = (m0, true) := by
  have hfull' : ∀ r c, r < m0.length → c < m0.length →
      getCell m0 r c ≠ 0 := by
    intro r c hr hc
    have h1 := List.all_eq_true.mp hfull r (List.mem_range.mpr hr)
    have h2 := List.all_eq_true.mp h1 c (List.mem_range.mpr hc)
    simpa using h2
  have hall : AllFilled m0 := by
    intro r c hr hc
    have h1 := entriesInRange_spec m0 hrange r c hr hc
    have h2 := hfull' r c hr hc
    exact ⟨by omega, h1.2⟩
  have hpw : PairwiseOK m0 := by
    intro p q hp1 hp2 hq1 hq2 hne hsame
    have hvp := consistentFilled_spec m0 hcons p.1 p.2 hp1 hp2
      (hfull' _ _ hp1 hp2)
    have hspec := (is_value_valid_iff m0 _ p hs hp1 hp2).mp hvp
    have hq := hspec.2 q hq1 hq2 (fun hc => hne hc.symm) hsame
    exact fun hc => hq hc.symm
  have hsolved := solved_of_pairwise m0 hs hall hpw
  have hsat : formulaSat (modelOfGrid m0) (sudoku_to_sat m0) = true :=
    model_sat_of_solved m0 m0 hs ⟨rfl, fun _ _ _ _ _ => rfl⟩ hsolved
  cases engine with
  | none => exact absurd ⟨modelOfGrid m0, hsat⟩ hok
  | some f =>
    refine ⟨f, rfl, ?_⟩
    show (decodeInto f m0.length m0, true) = (m0, true)
    rw [decode_identity m0 hsq hs hsolved f hok]

/-- C5 witness: the solved 4×4 grid with its own model as the engine answer. -/
theorem claim_C5_witness :
    ∃ f, (some (modelOfGrid seed4sol) : Option SAssign) = some f ∧
      solve_sat (some (modelOfGrid seed4sol)) seed4sol = (seed4sol, true) :=
  claim_C5_roundtrip seed4sol (by decide) (by decide) (by decide) (by decide)
    (by decide) (some (modelOfGrid seed4sol))
    (show formulaSat (modelOfGrid seed4sol) (sudoku_to_sat seed4sol) = true
      by decide)

-- Claim C7: the loop-step contract --------------------------------------------

theorem find?_intRange_eq (p : Int → Bool) (hi : Int) :
    ∀ (k : Nat) (lo x : Int), (hi + 1 - lo).toNat = k →
      lo ≤ x → x ≤ hi → p x = true →
      (∀ y, lo ≤ y → y < x → p y = false) →
      (intRange lo hi).find? p = some x := by
  intro k
  induction k with
  | zero =>
    intro lo x hk h1 h2 _ _
    omega
  | succ k ih =>
    intro lo x hk h1 h2 hp hmin
    rw [intRange_cons lo hi (by omega)]
    by_cases hxlo : x = lo
    · subst hxlo
      rw [List.find?_cons_of_pos _ hp]
    · rw [List.find?_cons_of_neg _ (by
        rw [hmin lo (le_refl lo) (by omega)]
        simp)]
      exact ih (lo + 1) x (by omega) (by omega) h2 hp
        (fun y hy1 hy2 => hmin y (by omega) hy2)

/-- C7: the step behaviour of the solver loop.  At cursor `i` on the blank
list, candidates strictly above the cell's current value up to `size` are
tried in ascending order: if `w` is valid and everything strictly between
the current value and `w` is invalid, the step writes `w` and increments the
cursor; if no candidate up to `size` is valid, the cell is reset to `0` and
the step returns `false` at `i = 0` or decrements the cursor; at
`i ≥ positions.length` the loop stops successfully with the grid as is. -/
theorem claim_C7_step (positions : List (Nat × Nat)) (size : Nat)
    (m : SMatrix) :
    (∀ (i : Nat) (hi : i < positions.length) (w : Int),
      getCell m (positions.get ⟨i, hi⟩).1 (positions.get ⟨i, hi⟩).2 < w →
      w ≤ (size : Int) →
      is_value_valid m w (positions.get ⟨i, hi⟩) = true →
      ((intRange (getCell m (positions.get ⟨i, hi⟩).1
          (positions.get ⟨i, hi⟩).2 + 1) (w - 1)).all
        (fun u => !(is_value_valid m u (positions.get ⟨i, hi⟩)))) = true →
      solveStep positions size m i =
        Sum.inl (setCell m (positions.get ⟨i, hi⟩).1
          (positions.get ⟨i, hi⟩).2 w, i + 1)) ∧
    (∀ (i : Nat) (hi : i < positions.length),
      ((intRange (getCell m (positions.get ⟨i, hi⟩).1
          (positions.get ⟨i, hi⟩).2 + 1) (size : Int)).all
        (fun w => !(is_value_valid m w (positions.get ⟨i, hi⟩)))) = true →
      (i = 0 → solveStep positions size m i =
        Sum.inr (setCell m (positions.get ⟨i, hi⟩).1
          (positions.get ⟨i, hi⟩).2 0, false)) ∧
      (i ≠ 0 → solveStep positions size m i =
        Sum.inl (setCell m (positions.get ⟨i, hi⟩).1
          (positions.get ⟨i, hi⟩).2 0, i - 1))) ∧
    (∀ i : Nat, positions.length ≤ i →
      solveStep positions size m i = Sum.inr (m, true) ∧
      ∀ fuel : Nat, solveLoop positions size (fuel + 1) m i =
        some (m, true)) := by
  refine ⟨?_, ?_, ?_⟩
  · intro i hi w hw1 hw2 hwval hmin
    apply solveStep_advance positions size m i hi w
    apply find?_intRange_eq _ _ _ _ w rfl (by omega) hw2 hwval
    intro y hy1 hy2
    have hally := List.all_eq_true.mp hmin y
      ((mem_intRange _ _ y).mpr ⟨hy1, by omega⟩)
    simpa using hally
  · intro i hi hnone
    have hfind : (intRange (getCell m (positions.get ⟨i, hi⟩).1
        (positions.get ⟨i, hi⟩).2 + 1) (size : Int)).find?
        (fun w => is_value_valid m w (positions.get ⟨i, hi⟩)) = none := by
      rw [List.find?_eq_none]
      intro x hx
      have := List.all_eq_true.mp hnone x hx
      simpa using this
    constructor
    · intro hi0
      subst hi0
      exact solveStep_fail positions size m hi hfind
    · intro hi0
      exact solveStep_back positions size m i hi hi0 hfind
  · intro i hilen
    have hstep := solveStep_done positions size m i (by omega)
    refine ⟨hstep, ?_⟩
    intro fuel
    rw [solveLoop, hstep]

/-- C7 witness: the first step on the single-clue 4×4 puzzle writes digit
`2` into the first blank `(0,1)` and advances the cursor. -/
theorem claim_C7_witness :
    solveStep (blankPositions seed4) 4 seed4 0 =
      Sum.inl (setCell seed4 0 1 2, 1) :=
  (claim_C7_step (blankPositions seed4) 4 seed4).1 0 (by decide) 2
    (by decide) (by decide) (by decide) (by decide)

-- Claim C4: both solvers succeed on solvable inputs ---------------------------

theorem completionB_spec (m0 mc : SMatrix) (h : completionB m0 mc = true) :
    CompletionOf m0 mc := by
  unfold completionB at h
  rw [Bool.and_eq_true] at h
  obtain ⟨h1, h2⟩ := h
  refine ⟨by simpa using h1, ?_⟩
  intro r c hr hc hnz
  have h3 := List.all_eq_true.mp
    (List.all_eq_true.mp h2 r (List.mem_range.mpr hr)) c (List.mem_range.mpr hc)
  simp only [Bool.or_eq_true, beq_iff_eq] at h3
  rcases h3 with h0 | he
  · exact absurd h0 hnz
  · exact he

theorem completion_entriesInRange (m0 mc : SMatrix)
    (hs : isqrt m0.length * isqrt m0.length = m0.length)
    (hcomp : CompletionOf m0 mc) (hsolved : isSolvedGrid mc = true) :
    entriesInRange m0 = true := by
  obtain ⟨hclen, hagree⟩ := hcomp
  have hs' : isqrt mc.length * isqrt mc.length = mc.length := by
    rw [hclen]; exact hs
  have hall := (pairwise_of_solved mc hs' hsolved).1
  unfold entriesInRange
  rw [List.all_eq_true]
  intro r hrm
  rw [List.all_eq_true]
  intro c hcm
  rw [List.mem_range] at hrm hcm
  rw [Bool.and_eq_true, decide_eq_true_eq, decide_eq_true_eq]
  by_cases h0 : getCell m0 r c = 0
  · rw [h0]
    exact ⟨le_refl 0, Int.natCast_nonneg _⟩
  · have heq : getCell mc r c = getCell m0 r c := hagree r c hrm hcm h0
    obtain ⟨hb1, hb2⟩ := hall r c (by omega) (by omega)
    rw [heq] at hb1 hb2
    rw [hclen] at hb2
    exact ⟨by omega, hb2⟩

theorem completion_consistent (m0 mc : SMatrix)
    (hs : isqrt m0.length * isqrt m0.length = m0.length)
    (hcomp : CompletionOf m0 mc) (hsolved : isSolvedGrid mc = true) :
    consistentFilled m0 = true := by
  obtain ⟨hclen, hagree⟩ := hcomp
  have hs' : isqrt mc.length * isqrt mc.length = mc.length := by
    rw [hclen]; exact hs
  obtain ⟨hall, hpw⟩ := pairwise_of_solved mc hs' hsolved
  unfold consistentFilled
  rw [List.all_eq_true]
  intro r hrm
  rw [List.all_eq_true]
  intro c hcm
  rw [List.mem_range] at hrm hcm
  rw [Bool.or_eq_true]
  by_cases h0 : getCell m0 r c = 0
  · left
    simpa using h0
  · right
    rw [is_value_valid_iff m0 _ (r, c) hs hrm hcm]
    refine ⟨h0, ?_⟩
    intro q hq1 hq2 hqne hsame heq
    by_cases hq0 : getCell m0 q.1 q.2 = 0
    · rw [hq0] at heq
      exact h0 heq.symm
    · have heqq : getCell mc q.1 q.2 = getCell m0 q.1 q.2 :=
        hagree q.1 q.2 hq1 hq2 hq0
      have heqp : getCell mc r c = getCell m0 r c := hagree r c hrm hcm h0
      apply hpw (r, c) q (by omega) (by omega) (by omega) (by omega)
        (Ne.symm hqne) (by rw [hclen]; exact hsame)
      show getCell mc r c = getCell mc q.1 q.2
      rw [heqp, heqq]
      exact heq.symm

theorem completion_value_valid (m0 mc m : SMatrix)
    (hs : isqrt m0.length * isqrt m0.length = m0.length)
    (hcomp : CompletionOf m0 mc) (hsolved : isSolvedGrid mc = true)
    (hlen : m.length = m0.length)
    (i : Nat) (hi : i < (blankPositions m0).length)
    (htail : TailZero (blankPositions m0) m i)
    (hoff : ∀ r c, r < m0.length → c < m0.length →
      (r, c) ∉ blankPositions m0 → getCell m r c = getCell m0 r c)
    (hpre : ∀ k, k < i → k < (blankPositions m0).length →
      getCell m ((blankPositions m0).getD k (0, 0)).1
          ((blankPositions m0).getD k (0, 0)).2 =
        getCell mc ((blankPositions m0).getD k (0, 0)).1
          ((blankPositions m0).getD k (0, 0)).2) :
    is_value_valid m
      (getCell mc ((blankPositions m0).getD i (0, 0)).1
        ((blankPositions m0).getD i (0, 0)).2)
      ((blankPositions m0).getD i (0, 0)) = true := by
  obtain ⟨hclen, hagree⟩ := hcomp
  obtain ⟨hall, hpw⟩ := pairwise_of_solved mc
    (by rw [hclen]; exact hs) hsolved
  obtain ⟨hp1, hp2, hp0⟩ := blank_getD_spec m0 i hi
  set pos := (blankPositions m0).getD i (0, 0) with hposdef
  have hsm : isqrt m.length * isqrt m.length = m.length := by
    rw [hlen]; exact hs
  obtain ⟨hwb1, hwb2⟩ := hall pos.1 pos.2 (by omega) (by omega)
  rw [is_value_valid_iff m _ pos hsm (by omega) (by omega)]
  refine ⟨by omega, ?_⟩
  intro q hq1 hq2 hqne hsame heq
  rw [hlen] at hq1 hq2
  have hsame2 : sameUnit (isqrt mc.length) pos q := by
    rw [show isqrt mc.length = isqrt m.length by rw [hclen, ← hlen]]
    exact hsame
  by_cases hqmem : q ∈ blankPositions m0
  · obtain ⟨k, hk, hkeq⟩ := List.mem_iff_getElem.mp hqmem
    have hkD : (blankPositions m0).getD k (0, 0) = q := by
      rw [getD_list_eq _ k hk]
      exact hkeq
    rcases Nat.lt_trichotomy k i with hki | hki | hki
    · have hq : getCell m q.1 q.2 = getCell mc q.1 q.2 := by
        have h2 := hpre k hki hk
        rw [hkD] at h2
        exact h2
      rw [hq] at heq
      exact hpw q pos (by omega) (by omega) (by omega) (by omega) hqne
        (sameUnit_symm _ _ _ hsame2) heq
    · subst hki
      exact hqne hkD.symm
    · have hq0 : getCell m q.1 q.2 = 0 := by
        have h2 := htail k hki hk
        rw [hkD] at h2
        exact h2
      rw [hq0] at heq
      omega
  · have hqoff : getCell m q.1 q.2 = getCell m0 q.1 q.2 :=
      hoff q.1 q.2 hq1 hq2 hqmem
    have hq0 : getCell m0 q.1 q.2 ≠ 0 := by
      intro hc0
      exact hqmem ((mem_blankPositions m0 q).mpr ⟨hq1, hq2, hc0⟩)
    have hqc : getCell mc q.1 q.2 = getCell m0 q.1 q.2 :=
      hagree q.1 q.2 hq1 hq2 hq0
    rw [hqoff, ← hqc] at heq
    exact hpw q pos (by omega) (by omega) (by omega) (by omega) hqne
      (sameUnit_symm _ _ _ hsame2) heq

theorem solveLoop_complete (m0 mc : SMatrix)
    (hs : isqrt m0.length * isqrt m0.length = m0.length)
    (hcomp : CompletionOf m0 mc) (hsolved : isSolvedGrid mc = true) :
    ∀ (fuel : Nat) (m : SMatrix) (i : Nat) (res : SMatrix × Bool),
      SquareGrid m → m.length = m0.length →
      TailZero (blankPositions m0) m i →
      (∀ r c, r < m0.length → c < m0.length → (r, c) ∉ blankPositions m0 →
        getCell m r c = getCell m0 r c) →
      Frontier (blankPositions m0) mc m i →
      solveLoop (blankPositions m0) m0.length fuel m i = some res →
      res.2 = true := by
  have hclen : mc.length = m0.length := hcomp.1
  have hall := (pairwise_of_solved mc (by rw [hclen]; exact hs) hsolved).1
  intro fuel
  induction fuel with
  | zero =>
    intro m i res _ _ _ _ _ hloop
    cases hloop
  | succ fuel ih =>
    intro m i res hsq hlen htail hoff hfr hloop
    rw [solveLoop] at hloop
    by_cases hi : i < (blankPositions m0).length
    case neg =>
      rw [solveStep_done _ _ _ _ hi] at hloop
      have hpair : (m, true) = res := by injection hloop
      rw [← hpair]
    case pos =>
      have hposD : (blankPositions m0).getD i (0, 0) =
          (blankPositions m0).get ⟨i, hi⟩ := by
        rw [getD_list_eq _ i hi]
        rfl
      set positions := blankPositions m0 with hpositions
      set pos := positions.get ⟨i, hi⟩ with hposdef
      obtain ⟨hp1, hp2, hp0⟩ := blank_getD_spec m0 i hi
      rw [hposD] at hp1 hp2 hp0
      have hrowlen : (m.getD pos.1 []).length = m.length :=
        rowlen_of_square m hsq pos.1 (by omega)
      have hposmem : pos ∈ positions := List.get_mem _ _ _
      have hother : ∀ j, j < positions.length → j ≠ i →
          positions.getD j (0, 0) ≠ pos := by
        intro j hj hji heqp
        rw [getD_list_eq positions j hj] at heqp
        have hgj : positions[j] = positions[i] := by
          rw [heqp]
          rfl
        exact hji ((List.Nodup.getElem_inj_iff (blankPositions_nodup m0)).mp hgj)
      have hcell_other : ∀ (v : Int) (j), j < positions.length → j ≠ i →
          getCell (setCell m pos.1 pos.2 v) (positions.getD j (0, 0)).1
            (positions.getD j (0, 0)).2 =
          getCell m (positions.getD j (0, 0)).1 (positions.getD j (0, 0)).2 := by
        intro v j hj hji
        apply getCell_setCell_ne
        intro hc
        apply hother j hj hji
        exact Prod.ext_iff.mpr
          ⟨congrArg Prod.fst hc, congrArg Prod.snd hc⟩
      have hmcpos := hall pos.1 pos.2 (by omega) (by omega)
      cases hfind : (intRange (getCell m pos.1 pos.2 + 1)
          (m0.length : Int)).find? (fun w => is_value_valid m w pos) with
      | some w =>
        rw [solveStep_advance positions m0.length m i hi w hfind] at hloop
        obtain ⟨hw1, hw2, hwval, hwmin⟩ := find?_intRange_some _ _ _ _ hfind
        set m' := setCell m pos.1 pos.2 w with hm'
        have hgetw : getCell m' pos.1 pos.2 = w :=
          getCell_setCell_same m pos.1 pos.2 w (by omega) (by omega)
        refine ih m' (i + 1) res (squareGrid_setCell m pos.1 pos.2 w hsq)
          (by rw [hm', length_setCell]; exact hlen) ?_ ?_ ?_ hloop
        · intro j hj1 hj2
          rw [hm', hcell_other w j hj2 (by omega)]
          exact htail j (by omega) hj2
        · intro r c hr hc hnotin
          rw [hm', getCell_setCell_ne m pos.1 pos.2 w r c
            (by
              intro hc2
              apply hnotin
              have h3 : (r, c) = pos := Prod.ext_iff.mpr
                ⟨congrArg Prod.fst hc2, congrArg Prod.snd hc2⟩
              rw [h3]
              exact hposmem)]
          exact hoff r c hr hc hnotin
        · rcases hfr with ⟨j, hj1, hj2, hjpre, hjlt⟩ | ⟨hpre, hlt⟩
          · left
            refine ⟨j, by omega, hj2, ?_, ?_⟩
            · intro k hk
              rw [hm', hcell_other w k (by omega) (by omega)]
              exact hjpre k hk
            · rw [hm', hcell_other w j hj2 (by omega)]
              exact hjlt
          · have hvalid := completion_value_valid m0 mc m hs hcomp hsolved hlen
              i hi htail hoff hpre
            rw [hposD] at hvalid
            have hvi := hlt hi
            rw [hposD] at hvi
            have hwle : w ≤ getCell mc pos.1 pos.2 := by
              by_contra hcon
              have hfalse : is_value_valid m (getCell mc pos.1 pos.2) pos =
                  false := hwmin (getCell mc pos.1 pos.2) (by omega) (by omega)
              rw [hvalid] at hfalse
              cases hfalse
            rcases lt_or_eq_of_le hwle with hwlt | hweq
            · left
              refine ⟨i, by omega, hi, ?_, ?_⟩
              · intro k hk
                rw [hm', hcell_other w k (by omega) (by omega)]
                exact hpre k hk (by omega)
              · rw [hposD, hgetw]
                exact hwlt
            · right
              constructor
              · intro k hk hklen
                by_cases hki : k = i
                · subst hki
                  rw [hposD, hgetw, hweq]
                · rw [hm', hcell_other w k hklen hki]
                  exact hpre k (by omega) hklen
              · intro hi1
                obtain ⟨hq1, hq2, hq0⟩ := blank_getD_spec m0 (i + 1) hi1
                rw [← hpositions] at hq1 hq2
                rw [hm', hcell_other w (i + 1) hi1 (by omega),
                  htail (i + 1) (by omega) hi1]
                have hb := (hall (positions.getD (i + 1) (0, 0)).1
                  (positions.getD (i + 1) (0, 0)).2
                  (by omega) (by omega)).1
                omega
      | none =>
        have hwile : getCell mc pos.1 pos.2 ≤ (m0.length : Int) := by
          have h2 := hmcpos.2
          rwa [hclen] at h2
        by_cases hi0 : i = 0
        · subst hi0
          rw [solveStep_fail positions m0.length m hi hfind] at hloop
          exfalso
          rcases hfr with ⟨j, hj1, -, -, -⟩ | ⟨hpre, hlt⟩
          · exact absurd hj1 (Nat.not_lt_zero j)
          · have hvalid := completion_value_valid m0 mc m hs hcomp hsolved hlen
              0 hi htail hoff hpre
            rw [hposD] at hvalid
            have hvi := hlt hi
            rw [hposD] at hvi
            have hfalse : is_value_valid m (getCell mc pos.1 pos.2) pos =
                false := find?_intRange_none _ _ _ hfind
              (getCell mc pos.1 pos.2) (by omega) hwile
            rw [hvalid] at hfalse
            cases hfalse
        · rw [solveStep_back positions m0.length m i hi hi0 hfind] at hloop
          set m' := setCell m pos.1 pos.2 0 with hm'
          refine ih m' (i - 1) res (squareGrid_setCell m pos.1 pos.2 0 hsq)
            (by rw [hm', length_setCell]; exact hlen) ?_ ?_ ?_ hloop
          · intro j hj1 hj2
            by_cases hji : j = i
            · subst hji
              rw [hposD, hm',
                getCell_setCell_same m pos.1 pos.2 0 (by omega) (by omega)]
            · rw [hm', hcell_other 0 j hj2 hji]
              exact htail j (by omega) hj2
          · intro r c hr hc hnotin
            rw [hm', getCell_setCell_ne m pos.1 pos.2 0 r c
              (by
                intro hc2
                apply hnotin
                have h3 : (r, c) = pos := Prod.ext_iff.mpr
                  ⟨congrArg Prod.fst hc2, congrArg Prod.snd hc2⟩
                rw [h3]
                exact hposmem)]
            exact hoff r c hr hc hnotin
          · rcases hfr with ⟨j, hj1, hj2, hjpre, hjlt⟩ | ⟨hpre, hlt⟩
            · by_cases hji : j = i - 1
              · subst hji
                right
                constructor
                · intro k hk hklen
                  rw [hm', hcell_other 0 k hklen (by omega)]
                  exact hjpre k hk
                · intro hi2
                  rw [hm', hcell_other 0 (i - 1) hi2 (by omega)]
                  exact hjlt
              · left
                refine ⟨j, by omega, hj2, ?_, ?_⟩
                · intro k hk
                  rw [hm', hcell_other 0 k (by omega) (by omega)]
                  exact hjpre k hk
                · rw [hm', hcell_other 0 j hj2 (by omega)]
                  exact hjlt
            · exfalso
              have hvalid := completion_value_valid m0 mc m hs hcomp hsolved
                hlen i hi htail hoff hpre
              rw [hposD] at hvalid
              have hvi := hlt hi
              rw [hposD] at hvi
              have hfalse : is_value_valid m (getCell mc pos.1 pos.2) pos =
                  false := find?_intRange_none _ _ _ hfind
                (getCell mc pos.1 pos.2) (by omega) hwile
              rw [hvalid] at hfalse
              cases hfalse

theorem bt_complete (m0 mc : SMatrix)
    (hsqB : squareGridB m0 = true)
    (hs : isqrt m0.length * isqrt m0.length = m0.length)
    (hcomp : CompletionOf m0 mc) (hsolved : isSolvedGrid mc = true) :
    ∃ mf : SMatrix, solve_backtracking m0 = (mf, true) := by
  have hclen : mc.length = m0.length := hcomp.1
  have hsq := squareGridB_spec m0 hsqB
  have hall := (pairwise_of_solved mc (by rw [hclen]; exact hs) hsolved).1
  have hterm := bt_terminates m0 hsq
  cases hres : solveLoop (blankPositions m0) m0.length (btFuel m0) m0 0 with
  | none =>
    rw [hres] at hterm
    simp at hterm
  | some res =>
    have hrt : res.2 = true := by
      refine solveLoop_complete m0 mc hs hcomp hsolved (btFuel m0) m0 0 res
        hsq rfl ?_ ?_ ?_ hres
      · intro j hj1 hj2
        exact (blank_getD_spec m0 j hj2).2.2
      · intro r c _ _ _
        rfl
      · right
        constructor
        · intro k hk _
          exact absurd hk (Nat.not_lt_zero k)
        · intro h0
          obtain ⟨hq1, hq2, hq0⟩ := blank_getD_spec m0 0 h0
          rw [hq0]
          have hb := (hall ((blankPositions m0).getD 0 (0, 0)).1
            ((blankPositions m0).getD 0 (0, 0)).2 (by omega) (by omega)).1
          omega
    refine ⟨res.1, ?_⟩
    unfold solve_backtracking
    rw [hres]
    simp only [Option.getD_some]
    exact Prod.ext_iff.mpr ⟨rfl, hrt⟩

/-- C4: on every solvable input — a grid of perfect-square side admitting a
constraint-consistent completion — both solvers succeed: `solve_backtracking`
returns `true`, and `solve_sat` returns `true` for every engine answer
respecting the contract; each resulting grid independently carries every
digit `1..=size` exactly once in every row, column and block.  The two
outputs are not claimed identical. -/
theorem claim_C4_both_solve (m0 mc : SMatrix)
    (hsq : squareGridB m0 = true)
    (hs : isqrt m0.length * isqrt m0.length = m0.length)
    (hcomp : CompletionOf m0 mc)
    (hsolved : isSolvedGrid mc = true) :
    (∃ mf : SMatrix, solve_backtracking m0 = (mf, true) ∧
      isSolvedGrid mf = true) ∧
    (∀ engine : Option SAssign, EngineOk (sudoku_to_sat m0) engine →
      ∃ mf : SMatrix, solve_sat engine m0 = (mf, true) ∧
        isSolvedGrid mf = true) := by
  constructor
  · obtain ⟨mf, hrun⟩ := bt_complete m0 mc hsq hs hcomp hsolved
    refine ⟨mf, hrun, ?_⟩
    exact bt_sound_final m0 hsq hs
      (completion_entriesInRange m0 mc hs hcomp hsolved)
      (completion_consistent m0 mc hs hcomp hsolved) mf hrun
  · intro engine hok
    cases engine with
    | none =>
      exact absurd ⟨modelOfGrid mc, model_sat_of_solved m0 mc hs hcomp hsolved⟩
        hok
    | some f =>
      exact ⟨decodeInto f m0.length m0, rfl, sat_decode_solved m0 hsq hs f hok⟩

/-- C4 witness: the single-clue 4×4 puzzle `seed4` with its completion
`seed4sol`; the backtracking solver succeeds, and so does the SAT solver on
the engine answer given by the completion's own model, both with
exactly-once outputs. -/
theorem claim_C4_witness :
    (∃ mf : SMatrix, solve_backtracking seed4 = (mf, true) ∧
      isSolvedGrid mf = true) ∧
    (∃ mf : SMatrix, solve_sat (some (modelOfGrid seed4sol)) seed4 =
      (mf, true) ∧ isSolvedGrid mf = true) := by
  have h := claim_C4_both_solve seed4 seed4sol (by decide) (by decide)
    (completionB_spec seed4 seed4sol (by decide)) (by decide)
  exact ⟨h.1, h.2 (some (modelOfGrid seed4sol))
    (show formulaSat (modelOfGrid seed4sol) (sudoku_to_sat seed4) = true
      by decide)⟩
